import Mathlib

/-! # dynamodb-concurrent-updates: a verification development

Shallow embedding of `aws-golang-rest/tooling/sets.go`,
`aws-golang-rest/tooling/dynamodb.go` and `aws-golang-rest/main.go`.

* Go slices are Lean lists, Go maps are association lists.
* A Go function that can panic returns an `Option` (`none` is the panic).
* The key-value store is an external collaborator: the programs are written
  over a `Client` record of store operations acting on an explicit store state.
-/

namespace Tooling

/-! ## sets.go -/

/-- Go `map[string]bool`, most recent binding first. -/
abbrev ElementMap := List (String × Bool)

/-- Go map assignment `m[k] = v`. -/
def ElementMap.set (m : ElementMap) (k : String) (v : Bool) : ElementMap :=
  (k, v) :: m

/-- Go map read `m[k]`; a missing key reads as the zero value `false`. -/
def ElementMap.get (m : ElementMap) (k : String) : Bool :=
  match m with
  | [] => false
  | (k', v) :: rest => if k' = k then v else ElementMap.get rest k

/-- First loop of `IsSubset`: `for _, item := range superset { elementMap[item] = true }`. -/
def buildElementMap (superset : List String) (elementMap : ElementMap) : ElementMap :=
  match superset with
  | [] => elementMap
  | item :: rest => buildElementMap rest (elementMap.set item true)

/-- Second loop of `IsSubset`: return `false` at the first element missing from the map. -/
def checkElements (subset : List String) (elementMap : ElementMap) : Bool :=
  match subset with
  | [] => true
  | item :: rest => if !elementMap.get item then false else checkElements rest elementMap

/-- Method `func (subset StringSlice) IsSubset(superset []string) bool`. -/
def IsSubset (subset superset : List String) : Bool :=
  let elementMap := buildElementMap superset []
  checkElements subset elementMap

/-! ## dynamodb.go: error classification -/

/-- Go `strings.Contains` on the characters of the two strings. -/
def containsChars (s sub : List Char) : Bool :=
  match s with
  | [] => sub.isEmpty
  | c :: cs => sub.isPrefixOf (c :: cs) || containsChars cs sub

/-- Go `strings.Contains(s, substr)`. -/
def stringsContains (s substr : String) : Bool :=
  containsChars s.data substr.data

/-- Type `types.CancellationReason`; `Code` is a `*string`, `none` is the nil pointer. -/
structure CancellationReason where
  Code : Option String
deriving DecidableEq, Repr

/-- What `IsConditionalCheckFailure` can observe of a non-nil Go `error`:
its `Error()` text and the outcome of `errors.As` for the three target types.
`apiCode` is the server-reported error code, when the error carries one; the
function never reads it. -/
structure GoError where
  text : String
  asOperationError : Bool
  asResponseError : Bool
  asTransactionCanceled : Option (List CancellationReason)
  apiCode : Option String
deriving DecidableEq, Repr

/-- Loop `for _, reason := range tce.CancellationReasons`: `some true` is the
early `return true`, `some false` is falling out of the loop, `none` is the
nil-pointer panic of `*reason.Code`. -/
def scanReasons (reasons : List CancellationReason) : Option Bool :=
  match reasons with
  | [] => some false
  | reason :: rest =>
    match reason.Code with
    | none => none
    | some code => if code = "ConditionalCheckFailed" then some true else scanReasons rest

/-- Function `func IsConditionalCheckFailure(err error) bool`; `none` is a panic. -/
def IsConditionalCheckFailure (err : GoError) : Option Bool :=
  if stringsContains err.text "ConditionalCheckFailedException" then some true
  else if err.asOperationError then
    if err.asResponseError then
      match err.asTransactionCanceled with
      | some reasons =>
        match scanReasons reasons with
        | none => none
        | some true => some true
        | some false => some false
      | none => some false
    else some false
  else some false

/-! ## dynamodb.go: ShuffleArray -/

/-- Source of random numbers: the stream of raw draws still to come. -/
abbrev Rng := Nat → Nat

/-- Go `rand.Intn(n)`: a value in `[0, n)`, obtained from the next raw draw; the
stream advances by one. -/
def Intn (n : Nat) (rng : Rng) : Nat × Rng :=
  (rng 0 % n, fun t => rng (t + 1))

/-- The function returned by `reflect.Swapper(arr)`: exchanges positions `i` and
`j`, and panics (`none`) when an index is out of range. -/
def swap {α : Type} (arr : List α) (i j : Nat) : Option (List α) :=
  match arr.get? i, arr.get? j with
  | some x, some y => some ((arr.set i y).set j x)
  | _, _ => none

/-- Loop `for i := length - 1; i > 0; i--` of `ShuffleArray`, entered with `i`. -/
def shuffleLoop {α : Type} (i : Nat) (arr : List α) (rng : Rng) : Option (List α) × Rng :=
  match i with
  | 0 => (some arr, rng)
  | i' + 1 =>
    let (j, rng') := Intn (i' + 1 + 1) rng
    match swap arr (i' + 1) j with
    | none => (none, rng')
    | some arr' => shuffleLoop i' arr' rng'

/-- Function `func ShuffleArray(arr interface{})`: Fisher-Yates; returns the shuffled
slice (`none` if a swap panicked) and the advanced random stream. -/
def ShuffleArray {α : Type} (arr : List α) (rng : Rng) : Option (List α) × Rng :=
  let length := arr.length
  if length ≤ 1 then (some arr, rng)
  else shuffleLoop (length - 1) arr rng

/-! ## Rows, keys and the store client -/

/-- Primary key `(PK, SK)` of a row: the map `{"PK": item["PK"], "SK": item["SK"]}`. -/
structure Key where
  PK : String
  SK : String
deriving DecidableEq, Repr

/-- A row `map[string]types.AttributeValue` of the table: the two key attributes,
which the key schema makes mandatory, and the remaining (string-valued)
attributes by name. -/
structure Item where
  PK : String
  SK : String
  attrs : List (String × String)
deriving DecidableEq, Repr

/-- Key of a row. -/
def Item.key (item : Item) : Key := ⟨item.PK, item.SK⟩

/-- Attribute names of a row, as collected by
`for k := range item { keys = append(keys, k) }`. -/
def itemKeys (item : Item) : List String :=
  "PK" :: "SK" :: item.attrs.map Prod.fst

/-- Type `dynamodb.ScanOutput`: the page's rows and the continuation token. The token
type `τ` is opaque to the programs. -/
structure ScanOutput (τ : Type) where
  Items : List Item
  LastEvaluatedKey : Option τ

/-- The four operations of `*dynamodb.Client` the programs use, acting on a store
state `σ`. `Scan` takes `ExclusiveStartKey`; `PutItem` takes the row and the
`ConditionExpression`; `UpdateItem` takes the key, the attribute named in
`set <name> = :r` and the value bound to `:r`; `DeleteItem` takes the key. -/
structure Client (σ τ : Type) where
  Scan : Option τ → σ → Except GoError (ScanOutput τ) × σ
  PutItem : Item → Option String → σ → Option GoError × σ
  UpdateItem : Key → String → String → σ → Option GoError × σ
  DeleteItem : Key → σ → Option GoError × σ

/-- How a call of `DeleteAllItems` or `UpdateAllItems` ends. -/
inductive Outcome where
  /-- Normal return of the `error` result (`none` is `nil`). -/
  | returned (err : Option GoError)
  /-- Abort by `log.Panic`. -/
  | panicked
  /-- Abort by `log.Fatalf`. -/
  | fatal (err : GoError)
  /-- The model ran out of fuel before the loop ended. -/
  | unfinished
deriving DecidableEq, Repr

/-! ## main.go: putItem -/

/-- Function `func putItem(d, tableName, item) error`. -/
def putItem {σ τ : Type} (d : Client σ τ) (item : Item) (s : σ) : Option GoError × σ :=
  d.PutItem item (some "attribute_not_exists(PK)") s

/-! ## dynamodb.go: DeleteAllItems -/

/-- The test `subset.IsSubset(keys)` with `subset = unames` made on a row. -/
def checkItem (unames : List String) (item : Item) : Bool :=
  let keys := itemKeys item
  IsSubset unames keys

/-- Loop `for _, item := range result.Items` of `DeleteAllItems`; `none` means the
loop ran to its end. -/
def deleteItems {σ τ : Type} (d : Client σ τ) (unames : List String)
    (items : List Item) (s : σ) : Option Outcome × σ :=
  match items with
  | [] => (none, s)
  | item :: rest =>
    if !checkItem unames item then (some Outcome.panicked, s)
    else
      match d.DeleteItem ⟨item.PK, item.SK⟩ s with
      | (some err, s') => (some (Outcome.returned (some err)), s')
      | (none, s') => deleteItems d unames rest s'

/-- Loop `for { ... }` of `DeleteAllItems`, entered with the current `offset`. -/
def deleteLoop {σ τ : Type} (d : Client σ τ) (unames : List String)
    (fuel : Nat) (offset : Option τ) (s : σ) : Outcome × σ :=
  match fuel with
  | 0 => (Outcome.unfinished, s)
  | fuel' + 1 =>
    match d.Scan offset s with
    | (Except.error err, s') => (Outcome.returned (some err), s')
    | (Except.ok result, s') =>
      match deleteItems d unames result.Items s' with
      | (some out, s'') => (out, s'')
      | (none, s'') =>
        match result.LastEvaluatedKey with
        | none => (Outcome.returned none, s'')
        | some k => deleteLoop d unames fuel' (some k) s''

/-- Function `func DeleteAllItems(d, tableName, unames) error`. -/
def DeleteAllItems {σ τ : Type} (d : Client σ τ) (unames : List String)
    (fuel : Nat) (s : σ) : Outcome × σ :=
  deleteLoop d unames fuel none s

/-! ## dynamodb.go: UpdateAllItems -/

/-- Loop `for _, item := range result.Items` of `UpdateAllItems`; `none` means the
loop ran to its end. -/
def updateItems {σ τ : Type} (d : Client σ τ) (uname : String)
    (items : List Item) (s : σ) : Option Outcome × σ :=
  match items with
  | [] => (none, s)
  | item :: rest =>
    match d.UpdateItem ⟨item.PK, item.SK⟩ uname "filled" s with
    | (some err, s') => (some (Outcome.fatal err), s')
    | (none, s') => updateItems d uname rest s'

/-- Loop `for { ... }` of `UpdateAllItems`, entered with the current `offset`. -/
def updateLoop {σ τ : Type} (d : Client σ τ) (uname : String)
    (fuel : Nat) (offset : Option τ) (rng : Rng) (s : σ) : Outcome × σ :=
  match fuel with
  | 0 => (Outcome.unfinished, s)
  | fuel' + 1 =>
    match d.Scan offset s with
    | (Except.error err, s') => (Outcome.returned (some err), s')
    | (Except.ok result, s') =>
      match ShuffleArray result.Items rng with
      | (none, _) => (Outcome.panicked, s')
      | (some items, rng') =>
        match updateItems d uname items s' with
        | (some out, s'') => (out, s'')
        | (none, s'') =>
          match result.LastEvaluatedKey with
          | none => (Outcome.returned none, s'')
          | some k => updateLoop d uname fuel' (some k) rng' s''

/-- Function `func UpdateAllItems(d, tableName, uname) error`. -/
def UpdateAllItems {σ τ : Type} (d : Client σ τ) (uname : String)
    (fuel : Nat) (rng : Rng) (s : σ) : Outcome × σ :=
  updateLoop d uname fuel none rng s

/-! ## Store models -/

/-- A request received by the store. -/
inductive Request (τ : Type) where
  | scan (start : Option τ)
  | put (item : Item) (condition : Option String)
  | update (key : Key) (name value : String)
  | delete (key : Key)
deriving DecidableEq, Repr

/-- Store that serves a fixed chain of pages: page `k` comes with the token
`k + 1` exactly when a later page exists. The state is the list of requests
received so far; every call succeeds. -/
def chainClient (pages : List (List Item)) : Client (List (Request Nat)) Nat where
  Scan := fun start log =>
    let k := start.getD 0
    (Except.ok ⟨pages.getD k [], if k + 1 < pages.length then some (k + 1) else none⟩,
      log ++ [Request.scan start])
  PutItem := fun item cond log => (none, log ++ [Request.put item cond])
  UpdateItem := fun key name value log => (none, log ++ [Request.update key name value])
  DeleteItem := fun key log => (none, log ++ [Request.delete key])

/-- State of the table store: the rows in scan order and the requests received. -/
structure Store where
  table : List Item
  log : List (Request Key)
deriving DecidableEq, Repr

/-- Set attribute `name` of an attribute list to `value` (`set name = :r`). -/
def setAttr (attrs : List (String × String)) (name value : String) : List (String × String) :=
  match attrs with
  | [] => [(name, value)]
  | (n, v) :: rest => if n = name then (n, value) :: rest else (n, v) :: setAttr rest name value

/-- Row after `set name = :r`. -/
def Item.setAttr (item : Item) (name value : String) : Item :=
  { item with attrs := Tooling.setAttr item.attrs name value }

/-- Insert a row at its place in scan order, replacing a row of the same key. -/
def insertItem (rank : Key → Nat) (item : Item) (table : List Item) : List Item :=
  match table with
  | [] => [item]
  | r :: rest =>
    if r.key = item.key then item :: rest
    else if rank item.key < rank r.key then item :: r :: rest
    else r :: insertItem rank item rest

/-- Error text of the SDK for a failed condition. -/
def conditionalCheckFailed : GoError :=
  { text := "operation error DynamoDB: PutItem, https response error StatusCode: 400, ConditionalCheckFailedException: The conditional request failed"
    asOperationError := true
    asResponseError := true
    asTransactionCanceled := none
    apiCode := some "ConditionalCheckFailedException" }

/-- Error of the store for an update that names a key attribute. -/
def validationError : GoError :=
  { text := "operation error DynamoDB: UpdateItem, https response error StatusCode: 400, ValidationException: Cannot update attribute. This attribute is part of the key"
    asOperationError := true
    asResponseError := true
    asTransactionCanceled := none
    apiCode := some "ValidationException" }

/-- Scan of the table store: the rows placed after `start` in scan order, at most
`limit` of them, and as token the key of the last row returned when rows remain. -/
def tableScan (rank : Key → Nat) (limit : Nat) (start : Option Key) (table : List Item) :
    ScanOutput Key :=
  let rest := match start with
    | none => table
    | some k => table.filter (fun r => rank k < rank r.key)
  let page := rest.take limit
  ⟨page, if limit < rest.length then page.getLast?.map Item.key else none⟩

/-- Point update of the table store: sets the attribute on the row of that key,
creating the row when the key is absent. -/
def tableUpdate (rank : Key → Nat) (key : Key) (name value : String) (table : List Item) :
    List Item :=
  if table.any (fun r => r.key = key) then
    table.map (fun r => if r.key = key then r.setAttr name value else r)
  else insertItem rank ⟨key.PK, key.SK, [(name, value)]⟩ table

/-- Table store: rows are kept in the store's scan order, given by `rank` on keys;
a scan returns at most `limit` rows. -/
def tableClient (rank : Key → Nat) (limit : Nat) : Client Store Key where
  Scan := fun start s =>
    (Except.ok (tableScan rank limit start s.table), { s with log := s.log ++ [Request.scan start] })
  PutItem := fun item cond s =>
    if cond = some "attribute_not_exists(PK)" ∧ s.table.any (fun r => r.key = item.key) then
      (some conditionalCheckFailed, { s with log := s.log ++ [Request.put item cond] })
    else
      (none, { table := insertItem rank item s.table, log := s.log ++ [Request.put item cond] })
  UpdateItem := fun key name value s =>
    if name = "PK" ∨ name = "SK" then
      (some validationError, { s with log := s.log ++ [Request.update key name value] })
    else
      (none, { table := tableUpdate rank key name value s.table,
               log := s.log ++ [Request.update key name value] })
  DeleteItem := fun key s =>
    (none, { table := s.table.filter (fun r => r.key ≠ key),
             log := s.log ++ [Request.delete key] })

/-! ## Reference classification and sample values -/

/-- Classification by what the server reported, in the words of the
specification: the error code is `ConditionalCheckFailedException`, or the error
is a cancelled transaction with a reason coded `"ConditionalCheckFailed"`. -/
def conditionalCheckFailureByCode (err : GoError) : Bool :=
  err.apiCode == some "ConditionalCheckFailedException" ||
  match err.asTransactionCanceled with
  | some reasons => reasons.any (fun r => r.Code == some "ConditionalCheckFailed")
  | none => false

/-- The error `errors.New("not a ConditionalCheckFailedException")`. -/
def plainErrorMentioningCode : GoError :=
  { text := "not a ConditionalCheckFailedException"
    asOperationError := false
    asResponseError := false
    asTransactionCanceled := none
    apiCode := none }

/-- A cancelled transaction, as the SDK wraps it, with the given reasons. -/
def transactionCanceled (reasons : List CancellationReason) : GoError :=
  { text := "operation error DynamoDB: TransactWriteItems, https response error StatusCode: 400, TransactionCanceledException: Transaction cancelled"
    asOperationError := true
    asResponseError := true
    asTransactionCanceled := some reasons
    apiCode := some "TransactionCanceledException" }

/-- A row as `seedItems` writes it: `PK`, `SK` and `RandomContent`. -/
def seededItem : Item := ⟨"PK-0", "A", [("RandomContent", "qwertyuiop")]⟩

/-- The row of `putItemConditionCheckFailureExample`: `PK` and `SK` only. -/
def exampleItem : Item := ⟨"ITEM#123", "A", []⟩

/-- A scan order for the samples: keys ordered by the length of `PK`, then of `SK`. -/
def sampleRank (k : Key) : Nat := 100 * k.PK.length + k.SK.length

/-! ## Expected request sequences -/

/-- Start key of the `k`-th scan request made to the chain store: none for the
first request, the token `k` afterwards. -/
def startOf (k : Nat) : Option Nat := if k = 0 then none else some k

/-- Requests of a pass that visits the given pages in order, the first of them
being page `k` of the chain: one scan request per page, followed by one request
`mk item` for each row of the page. -/
def passLog (mk : Item → Request Nat) (k : Nat) (pages : List (List Item)) : List (Request Nat) :=
  match pages with
  | [] => []
  | page :: rest => Request.scan (startOf k) :: (page.map mk ++ passLog mk (k + 1) rest)

/-- The point update issued for a row by `UpdateAllItems`. -/
def updateRequest {τ : Type} (uname : String) (item : Item) : Request τ :=
  Request.update ⟨item.PK, item.SK⟩ uname "filled"

/-- The delete issued for a row by `DeleteAllItems`. -/
def deleteRequest {τ : Type} (item : Item) : Request τ :=
  Request.delete ⟨item.PK, item.SK⟩

/-- Start key carried by a request, when it is a scan request. -/
def Request.scanStart {τ : Type} (r : Request τ) : Option (Option τ) :=
  match r with
  | Request.scan start => some start
  | _ => none

/-- Start keys of the scan requests of a log, in the order issued. -/
def scanStarts {τ : Type} (log : List (Request τ)) : List (Option τ) :=
  log.filterMap Request.scanStart

/-- Key deleted by a request, when it is a delete request. -/
def Request.deletedKey {τ : Type} (r : Request τ) : Option Key :=
  match r with
  | Request.delete key => some key
  | _ => none

/-- Keys of the delete requests of a log, in the order issued. -/
def deletedKeys {τ : Type} (log : List (Request τ)) : List Key :=
  log.filterMap Request.deletedKey

/-- Key, attribute and value of a request, when it is a point update. -/
def Request.updated {τ : Type} (r : Request τ) : Option (Key × String × String) :=
  match r with
  | Request.update key name value => some (key, name, value)
  | _ => none

/-- Point updates of a log, in the order issued. -/
def updatesOf {τ : Type} (log : List (Request τ)) : List (Key × String × String) :=
  log.filterMap Request.updated

/-! ## Well-formed tables and attribute reads -/

/-- The rows of a table are in the store's scan order; in particular no two rows
share a key. -/
@[reducible] def ScanOrdered (rank : Key → Nat) (table : List Item) : Prop :=
  table.Pairwise (fun a b => rank a.key < rank b.key)

/-- Value of attribute `name` in an attribute list. -/
def getAttr (attrs : List (String × String)) (name : String) : Option String :=
  match attrs with
  | [] => none
  | (n, v) :: rest => if n = name then some v else getAttr rest name

/-! ## A store that refuses some deletes -/

/-- The error of the store for a delete it does not authorise: a client error,
which the SDK returns to the caller without sending the request again. -/
def accessDenied : GoError :=
  { text := "operation error DynamoDB: DeleteItem, https response error StatusCode: 400, AccessDeniedException: User is not authorized to perform: dynamodb:DeleteItem on resource"
    asOperationError := true
    asResponseError := true
    asTransactionCanceled := none
    apiCode := some "AccessDeniedException" }

/-- The table store with `DeleteItem` refused for the keys of `denied`: such a
call fails and changes nothing but the request log; every other call is that of
the table store. -/
def denyingClient (rank : Key → Nat) (limit : Nat) (denied : List Key) : Client Store Key where
  Scan := (tableClient rank limit).Scan
  PutItem := (tableClient rank limit).PutItem
  UpdateItem := (tableClient rank limit).UpdateItem
  DeleteItem := fun key s =>
    if key ∈ denied then
      (some accessDenied, { s with log := s.log ++ [Request.delete key] })
    else (tableClient rank limit).DeleteItem key s

/-- State of a `DeleteAllItems` pass after `m` more pages were scanned and
deleted in full, each of them returning a token: the start key of the next scan
and the store; `none` when the pass does not get that far. -/
def deletePages {σ τ : Type} (d : Client σ τ) (unames : List String) (m : Nat)
    (offset : Option τ) (s : σ) : Option (Option τ × σ) :=
  match m with
  | 0 => some (offset, s)
  | m' + 1 =>
    match d.Scan offset s with
    | (Except.error _, _) => none
    | (Except.ok result, s') =>
      match deleteItems d unames result.Items s' with
      | (some _, _) => none
      | (none, s'') =>
        match result.LastEvaluatedKey with
        | none => none
        | some k => deletePages d unames m' (some k) s''

/-- Value of attribute `name` of a row, for a name other than `PK` and `SK`. -/
def Item.getAttr (item : Item) (name : String) : Option String :=
  Tooling.getAttr item.attrs name

/-! ## main.go: the concurrent writer pool

Each `worker` goroutine runs `UpdateAllItems`; the only points at which workers
interact are the store calls. A worker is therefore run one store call at a time,
and an interleaving is a sequence of worker indices. -/

/-- Where a worker stands in `UpdateAllItems`: about to issue a scan request with
the given start key; inside `for _, item := range result.Items` with the rows
still to update and the `LastEvaluatedKey` of the current page; or done. -/
inductive Phase (τ : Type) where
  | scanning (offset : Option τ)
  | updating (pending : List Item) (next : Option τ)
  | finished (out : Outcome)
deriving DecidableEq, Repr

/-- A `worker` goroutine: its writer identity, its random draws to come, and its
position in `UpdateAllItems`. -/
structure Worker (τ : Type) where
  uname : String
  rng : Rng
  phase : Phase τ

/-- One step of a worker inside `UpdateAllItems`: at most one store call. -/
def stepWorker {σ τ : Type} (d : Client σ τ) (w : Worker τ) (s : σ) : Worker τ × σ :=
  match w.phase with
  | Phase.scanning offset =>
    match d.Scan offset s with
    | (Except.error err, s') => ({ w with phase := Phase.finished (Outcome.returned (some err)) }, s')
    | (Except.ok result, s') =>
      match ShuffleArray result.Items w.rng with
      | (none, rng') => ({ w with rng := rng', phase := Phase.finished Outcome.panicked }, s')
      | (some items, rng') =>
        ({ w with rng := rng', phase := Phase.updating items result.LastEvaluatedKey }, s')
  | Phase.updating [] none => ({ w with phase := Phase.finished (Outcome.returned none) }, s)
  | Phase.updating [] (some k) => ({ w with phase := Phase.scanning (some k) }, s)
  | Phase.updating (item :: rest) next =>
    match d.UpdateItem ⟨item.PK, item.SK⟩ w.uname "filled" s with
    | (some err, s') => ({ w with phase := Phase.finished (Outcome.fatal err) }, s')
    | (none, s') => ({ w with phase := Phase.updating rest next }, s')
  | Phase.finished _ => (w, s)

/-- The workers of `updateAllItemsConcurrently` and the store they share. -/
structure Pool (σ τ : Type) where
  store : σ
  workers : List (Worker τ)

/-- Step the worker at position `i`; nothing happens when there is none. -/
def stepAt {σ τ : Type} (d : Client σ τ) (i : Nat) (workers : List (Worker τ)) (s : σ) :
    List (Worker τ) × σ :=
  match i, workers with
  | _, [] => ([], s)
  | 0, w :: ws => ((stepWorker d w s).1 :: ws, (stepWorker d w s).2)
  | i' + 1, w :: ws => (w :: (stepAt d i' ws s).1, (stepAt d i' ws s).2)

/-- Run an interleaving: the workers named by `schedule` step one after the other. -/
def runSchedule {σ τ : Type} (d : Client σ τ) (schedule : List Nat) (p : Pool σ τ) : Pool σ τ :=
  match schedule with
  | [] => p
  | i :: rest =>
    runSchedule d rest ⟨(stepAt d i p.workers p.store).2, (stepAt d i p.workers p.store).1⟩

/-- Loop `for i := 0; i < numWorkers; i++` of `updateAllItemsConcurrently`: one
worker per writer identity of `unames`, worker `i` drawing from `rngs i`, each
at the start of `UpdateAllItems`. -/
def spawnWorkers {τ : Type} (rngs : Nat → Rng) (i : Nat) (unames : List String) :
    List (Worker τ) :=
  match unames with
  | [] => []
  | uname :: rest => ⟨uname, rngs i, Phase.scanning none⟩ :: spawnWorkers rngs (i + 1) rest

/-- Function `func updateAllItemsConcurrently(dynamodbClient)` with the writer identities
`unames` and the interleaving `schedule`. -/
def updateAllItemsConcurrently {σ τ : Type} (d : Client σ τ) (unames : List String)
    (rngs : Nat → Rng) (schedule : List Nat) (s : σ) : Pool σ τ :=
  runSchedule d schedule ⟨s, spawnWorkers rngs 0 unames⟩

/-- The call `wg.Wait()` has returned: every worker came to the end of `UpdateAllItems`
with `nil`. -/
def Pool.completed {σ τ : Type} [DecidableEq τ] (p : Pool σ τ) : Bool :=
  p.workers.all (fun w => decide (w.phase = Phase.finished (Outcome.returned none)))

/-- Number of attributes of a row other than `PK` and `SK`. -/
def Item.nonKeyCount (item : Item) : Nat := item.attrs.length

/-- A worker stepped `n` times with no other worker in between. -/
def runWorker {σ τ : Type} (d : Client σ τ) (n : Nat) (w : Worker τ) (s : σ) : Worker τ × σ :=
  match n with
  | 0 => (w, s)
  | n' + 1 => runWorker d n' (stepWorker d w s).1 (stepWorker d w s).2

/-! ## Work left to a worker -/

/-- Number of rows a scan with start key `offset` still ranges over. -/
def afterCount (rank : Key → Nat) (offset : Option Key) (table : List Item) : Nat :=
  match offset with
  | none => table.length
  | some k => (table.filter (fun r => decide (rank k < rank r.key))).length

/-- A bound on the number of steps a worker in phase `ph` still takes. -/
def workLeft (rank : Key → Nat) (ph : Phase Key) (table : List Item) : Nat :=
  match ph with
  | Phase.scanning offset => 3 * afterCount rank offset table + 2
  | Phase.updating pending none => pending.length + 1
  | Phase.updating pending (some k) =>
    pending.length + 1 + (3 * afterCount rank (some k) table + 2)
  | Phase.finished _ => 0

/-- A worker that is done has returned `nil`. -/
def GoodPhase (ph : Phase Key) : Prop :=
  ∀ out, ph = Phase.finished out → out = Outcome.returned none

/-- Take one step off the budget at position `i`. -/
def decAt (i : Nat) (budgets : List Nat) : List Nat :=
  match i, budgets with
  | _, [] => []
  | 0, b :: bs => (b - 1) :: bs
  | i' + 1, b :: bs => b :: decAt i' bs

/-- Budgets left after the steps of a schedule. -/
def consume (schedule : List Nat) (budgets : List Nat) : List Nat :=
  match schedule with
  | [] => budgets
  | i :: rest => consume rest (decAt i budgets)

/-! ## Invariant of the writer pool on the table store -/

/-- The table after attribute `u` was set to `"filled"` on the rows with a key in `K`. -/
def touch (u : String) (K : List Key) (table : List Item) : List Item :=
  table.map (fun r => if r.key ∈ K then r.setAttr u "filled" else r)

/-- Row `r` is still to be updated by a worker in phase `ph`: it lies after the
start key of the worker's next scan, or in the rest of its current page. -/
def Remaining (rank : Key → Nat) (ph : Phase Key) (r : Item) : Prop :=
  match ph with
  | Phase.scanning none => True
  | Phase.scanning (some k) => rank k < rank r.key
  | Phase.updating pending none => r.key ∈ pending.map Item.key
  | Phase.updating pending (some k) => r.key ∈ pending.map Item.key ∨ rank k < rank r.key
  | Phase.finished (Outcome.returned none) => False
  | Phase.finished _ => True

/-- Every row the worker has left behind carries the worker's attribute, and the
rows of its current page are rows of the table. -/
def WorkerInv (rank : Key → Nat) (w : Worker Key) (table : List Item) : Prop :=
  (∀ r ∈ table, ¬ Remaining rank w.phase r → r.getAttr w.uname = some "filled") ∧
  (∀ pending next, w.phase = Phase.updating pending next →
    ∀ i ∈ pending, ∃ r ∈ table, r.key = i.key)

/-- Row `r'` has the key of `r`, the same value as `r` for every attribute that
is not a writer identity, and the attribute names of `r` followed by distinct
writer identities that `r` did not have. -/
def Agrees (unames : List String) (r r' : Item) : Prop :=
  r'.key = r.key ∧ (∀ name, name ∉ unames → r'.getAttr name = r.getAttr name) ∧
  ∃ extra : List String, r'.attrs.map Prod.fst = r.attrs.map Prod.fst ++ extra ∧
    extra.Nodup ∧ ∀ n ∈ extra, n ∈ unames ∧ n ∉ r.attrs.map Prod.fst

/-- The table `table'` is `table` after at most one point update by a writer of
`unames`. -/
def Touched (unames : List String) (table table' : List Item) : Prop :=
  table' = table ∨ ∃ u ∈ unames, ∃ K, table' = touch u K table

/-! # Theorems -/

/-! ## IsSubset -/

theorem ElementMap.get_set (m : ElementMap) (k k' : String) :
    (m.set k true).get k' = true ↔ k = k' ∨ m.get k' = true := by
  unfold ElementMap.set
  rw [ElementMap.get]
  by_cases h : k = k' <;> simp [h]

theorem get_buildElementMap (superset : List String) (m : ElementMap) (k : String) :
    (buildElementMap superset m).get k = true ↔ k ∈ superset ∨ m.get k = true := by
  induction superset generalizing m with
  | nil => simp [buildElementMap]
  | cons item rest ih =>
    rw [buildElementMap, ih, ElementMap.get_set]
    simp only [List.mem_cons]
    constructor
    · rintro (h | h | h)
      · exact Or.inl (Or.inr h)
      · exact Or.inl (Or.inl h.symm)
      · exact Or.inr h
    · rintro ((h | h) | h)
      · exact Or.inr (Or.inl h.symm)
      · exact Or.inl h
      · exact Or.inr (Or.inr h)

theorem checkElements_iff (subset : List String) (m : ElementMap) :
    checkElements subset m = true ↔ ∀ a ∈ subset, m.get a = true := by
  induction subset with
  | nil => simp [checkElements]
  | cons item rest ih =>
    rw [checkElements]
    by_cases h : m.get item = true
    · simp [h, ih]
    · simp [h]

theorem IsSubset_iff (A B : List String) :
    IsSubset A B = true ↔ ∀ a ∈ A, a ∈ B := by
  unfold IsSubset
  simp only [checkElements_iff, get_buildElementMap]
  simp [ElementMap.get]

/-- C4: `StringSlice(A).IsSubset(B)` is true exactly when every element of `A`
appears in `B`, whatever the duplicates and the order; it is true for every `B`
when `A` is empty, and false for `A = ["x"]`, `B = ["y"]`. -/
theorem C4_IsSubset_spec :
    (∀ A B : List String, IsSubset A B = true ↔ ∀ a ∈ A, a ∈ B) ∧
    (∀ B : List String, IsSubset [] B = true) ∧
    IsSubset ["x"] ["y"] = false := by
  refine ⟨IsSubset_iff, ?_, ?_⟩
  · intro B
    rw [IsSubset_iff]
    intro a ha
    cases ha
  · cases h : IsSubset ["x"] ["y"] with
    | false => rfl
    | true =>
      rw [IsSubset_iff] at h
      have := h "x" (List.mem_singleton.mpr rfl)
      simp at this

/-! ## ShuffleArray -/

theorem perm_cons_set {α : Type} (a y : α) (t : List α) (j : Nat)
    (h : t.get? j = some y) : (y :: t.set j a).Perm (a :: t) := by
  induction t generalizing j with
  | nil => simp at h
  | cons b t ih =>
    cases j with
    | zero =>
      simp at h
      subst h
      simpa using List.Perm.swap a b t
    | succ j =>
      simp at h
      simp only [List.set_cons_succ]
      exact (List.Perm.swap b y _).trans (((ih j (by simpa using h)).cons b).trans (List.Perm.swap a b t))

theorem swap_perm {α : Type} (arr : List α) (i j : Nat)
    (hi : i < arr.length) (hj : j < arr.length) :
    ∃ out, swap arr i j = some out ∧ out.Perm arr ∧ out.length = arr.length := by
  induction arr generalizing i j with
  | nil => simp at hi
  | cons a t ih =>
    cases i with
    | zero =>
      cases j with
      | zero => exact ⟨a :: t, by simp [swap], List.Perm.refl _, rfl⟩
      | succ j =>
        have hj' : j < t.length := by simpa using hj
        refine ⟨t.get ⟨j, hj'⟩ :: t.set j a, ?_, ?_, by simp⟩
        · simp [swap, List.getElem?_eq_getElem hj']
        · exact perm_cons_set a _ t j (by simp [List.getElem?_eq_getElem hj'])
    | succ i =>
      have hi' : i < t.length := by simpa using hi
      cases j with
      | zero =>
        refine ⟨t.get ⟨i, hi'⟩ :: t.set i a, ?_, ?_, by simp⟩
        · simp [swap, List.getElem?_eq_getElem hi']
        · exact perm_cons_set a _ t i (by simp [List.getElem?_eq_getElem hi'])
      | succ j =>
        have hj' : j < t.length := by simpa using hj
        obtain ⟨out, ho, hp, hl⟩ := ih i j hi' hj'
        refine ⟨a :: out, ?_, hp.cons a, by simp [hl]⟩
        simp only [swap, List.get?_eq_getElem?, List.getElem?_eq_getElem hi',
          List.getElem?_eq_getElem hj', Option.some.injEq] at ho
        simp [swap, List.getElem?_eq_getElem hi', List.getElem?_eq_getElem hj', ho]

theorem shuffleLoop_perm {α : Type} (i : Nat) (arr : List α) (rng : Rng)
    (hi : i < arr.length) :
    ∃ out, (shuffleLoop i arr rng).1 = some out ∧ out.Perm arr ∧ out.length = arr.length := by
  induction i generalizing arr rng with
  | zero => exact ⟨arr, rfl, List.Perm.refl _, rfl⟩
  | succ i ih =>
    have hj : rng 0 % (i + 1 + 1) < arr.length :=
      lt_of_lt_of_le (Nat.mod_lt _ (by omega)) (by omega)
    obtain ⟨mid, hs, hp, hl⟩ := swap_perm arr (i + 1) (rng 0 % (i + 1 + 1)) hi hj
    obtain ⟨out, ho, hp', hl'⟩ := ih mid (fun t => rng (t + 1)) (by omega)
    refine ⟨out, ?_, hp'.trans hp, hl'.trans hl⟩
    simp only [shuffleLoop, Intn, hs]
    exact ho

theorem ShuffleArray_perm {α : Type} (arr : List α) (rng : Rng) :
    ∃ out, (ShuffleArray arr rng).1 = some out ∧ out.Perm arr ∧ out.length = arr.length := by
  unfold ShuffleArray
  by_cases h : arr.length ≤ 1
  · exact ⟨arr, by simp [h], List.Perm.refl _, rfl⟩
  · simp only [h, if_false]
    exact shuffleLoop_perm _ arr rng (by omega)

/-- C5: for every input and every sequence of draws, `ShuffleArray` completes
(no swap index is out of range) with a permutation of the input of the same
length, every draw made at index `i` lies in `[0, i]`, and an input of length 0
or 1 comes back unchanged. -/
theorem C5_ShuffleArray_permutation :
    (∀ (α : Type) (arr : List α) (rng : Rng), ∃ out, (ShuffleArray arr rng).1 = some out ∧
      out.Perm arr ∧ out.length = arr.length ∧ (out : Multiset α) = (arr : Multiset α)) ∧
    (∀ (i : Nat) (rng : Rng), (Intn (i + 1) rng).1 ≤ i) ∧
    (∀ (α : Type) (rng : Rng), (ShuffleArray ([] : List α) rng).1 = some []) ∧
    (∀ (α : Type) (a : α) (rng : Rng), (ShuffleArray [a] rng).1 = some [a]) := by
  refine ⟨?_, ?_, ?_, ?_⟩
  · intro α arr rng
    obtain ⟨out, h1, h2, h3⟩ := ShuffleArray_perm arr rng
    exact ⟨out, h1, h2, h3, Multiset.coe_eq_coe.mpr h2⟩
  · intro i rng
    exact Nat.lt_succ_iff.mp (Nat.mod_lt _ (Nat.succ_pos i))
  · intro α rng
    simp [ShuffleArray]
  · intro α a rng
    simp [ShuffleArray]

/-! ## IsConditionalCheckFailure -/

theorem scanReasons_of_codes (reasons : List CancellationReason)
    (h : ∀ r ∈ reasons, r.Code ≠ none) :
    scanReasons reasons =
      some (reasons.any (fun r => r.Code == some "ConditionalCheckFailed")) := by
  induction reasons with
  | nil => rfl
  | cons r rest ih =>
    have hr := h r (List.mem_cons_self _ _)
    have ih' := ih (fun x hx => h x (List.mem_cons_of_mem _ hx))
    cases hc : r.Code with
    | none => exact absurd hc hr
    | some code =>
      by_cases hcode : code = "ConditionalCheckFailed"
      · simp [scanReasons, hc, hcode]
      · simp [scanReasons, hc, hcode, ih']

/-- C10 (as stated, refuted): the error `errors.New("not a
ConditionalCheckFailedException")` carries no server-reported code and is no
cancelled transaction, yet is classified as a conditional-check failure; and a
cancelled transaction whose only reason has no code makes the function panic. -/
theorem C10_counterexample :
    IsConditionalCheckFailure plainErrorMentioningCode = some true ∧
    conditionalCheckFailureByCode plainErrorMentioningCode = false ∧
    IsConditionalCheckFailure (transactionCanceled [⟨none⟩]) = none := by
  refine ⟨by decide, by decide, by decide⟩

/-- C10 (amended): for an error in which every cancellation reason carries a
code, `IsConditionalCheckFailure` returns, without panicking, `true` exactly when
the error text contains `ConditionalCheckFailedException`, or the error is at
once an operation error, a response error and a cancelled transaction one of
whose reasons is coded `"ConditionalCheckFailed"`. -/
theorem C10_classification (err : GoError)
    (h : ∀ reasons, err.asTransactionCanceled = some reasons → ∀ r ∈ reasons, r.Code ≠ none) :
    IsConditionalCheckFailure err =
      some (stringsContains err.text "ConditionalCheckFailedException" ||
        (err.asOperationError && err.asResponseError &&
          match err.asTransactionCanceled with
          | some reasons => reasons.any (fun r => r.Code == some "ConditionalCheckFailed")
          | none => false)) := by
  unfold IsConditionalCheckFailure
  by_cases ht : stringsContains err.text "ConditionalCheckFailedException" = true
  · simp [ht]
  · by_cases ho : err.asOperationError = true
    · by_cases hr : err.asResponseError = true
      · cases htx : err.asTransactionCanceled with
        | none => simp [ht, ho, hr]
        | some reasons =>
          have hs := scanReasons_of_codes reasons (h reasons htx)
          simp only [ht, ho, hr, hs]
          cases reasons.any (fun r => r.Code == some "ConditionalCheckFailed") <;> simp
      · simp [ht, ho, hr]
    · simp [ht, ho]

/-- Witness for C10: a cancelled transaction with reasons `None` and
`ConditionalCheckFailed` is classified as a conditional-check failure. -/
theorem C10_classification_witness :
    (∀ reasons, (transactionCanceled [⟨some "None"⟩, ⟨some "ConditionalCheckFailed"⟩]).asTransactionCanceled
        = some reasons → ∀ r ∈ reasons, r.Code ≠ none) ∧
    IsConditionalCheckFailure (transactionCanceled [⟨some "None"⟩, ⟨some "ConditionalCheckFailed"⟩])
      = some true := by
  have hyp : ∀ reasons,
      (transactionCanceled [⟨some "None"⟩, ⟨some "ConditionalCheckFailed"⟩]).asTransactionCanceled
        = some reasons → ∀ r ∈ reasons, r.Code ≠ none := by
    intro reasons hre r hr
    simp only [transactionCanceled, Option.some.injEq] at hre
    subst hre
    simp only [List.mem_cons, List.mem_singleton, List.not_mem_nil, or_false] at hr
    rcases hr with rfl | rfl <;> simp
  refine ⟨hyp, ?_⟩
  rw [C10_classification _ hyp]
  decide

/-! ## The check of DeleteAllItems -/

theorem checkItem_iff (unames : List String) (item : Item) :
    checkItem unames item = true ↔ ∀ w ∈ unames, w ∈ itemKeys item := by
  unfold checkItem
  exact IsSubset_iff _ _

/-- C1 (as stated, refuted): with no known writer, the seeded row `PK`, `SK`,
`RandomContent` passes the check and is deleted by a pass that returns `nil`,
although `RandomContent` is outside `knownWriters ∪ {PK, SK}`; and the row with
only `PK` and `SK` is rejected when a writer `w` is known. -/
theorem C1_counterexample :
    checkItem [] seededItem = true ∧
    ¬ (∀ k ∈ itemKeys seededItem, k ∈ ([] : List String) ++ ["PK", "SK"]) ∧
    DeleteAllItems (tableClient sampleRank 1) [] 2 ⟨[seededItem], []⟩ =
      (Outcome.returned none,
        ⟨[], [Request.scan none, Request.delete ⟨"PK-0", "A"⟩]⟩) ∧
    checkItem ["w"] exampleItem = false := by
  refine ⟨by decide, by decide, by decide, by decide⟩

/-- C1 (amended): the check made on a row passes exactly when every known writer
is among the row's attribute names, the pass aborts at a row exactly when some
known writer is missing from the row's attribute names, and with no known writer
every row is accepted. -/
theorem C1_check_known_writers_present {σ τ : Type} (d : Client σ τ) (unames : List String)
    (item : Item) (s : σ) :
    (checkItem unames item = true ↔ ∀ w ∈ unames, w ∈ itemKeys item) ∧
    ((deleteItems d unames [item] s).1 = some Outcome.panicked ↔
      ∃ w ∈ unames, w ∉ itemKeys item) ∧
    checkItem [] item = true := by
  refine ⟨checkItem_iff _ _, ?_, ?_⟩
  · by_cases hc : checkItem unames item = true
    · have hall := (checkItem_iff _ _).mp hc
      have hno : ¬ ∃ w ∈ unames, w ∉ itemKeys item := by
        rintro ⟨w, hw, hn⟩
        exact hn (hall w hw)
      simp only [deleteItems, hc, Bool.not_true, Bool.false_eq_true, if_false]
      rcases hd : d.DeleteItem ⟨item.PK, item.SK⟩ s with ⟨e, s'⟩
      cases e with
      | none => simp [hno]
      | some err => simp [hno]
    · have hex : ∃ w ∈ unames, w ∉ itemKeys item := by
        by_contra hcon
        apply hc
        rw [checkItem_iff]
        intro w hw
        by_contra hn
        exact hcon ⟨w, hw, hn⟩
      simp only [Bool.not_eq_true] at hc
      simp [deleteItems, hc, hex]
  · rw [checkItem_iff]
    intro w hw
    cases hw

/-! ## putItem on the table store -/

theorem countP_insertItem (rank : Key → Nat) (item : Item) (table : List Item)
    (h : ∀ r ∈ table, r.key ≠ item.key) :
    (insertItem rank item table).countP (fun r => r.key = item.key) = 1 := by
  have h0 : table.countP (fun r => decide (r.key = item.key)) = 0 := by
    rw [List.countP_eq_zero]
    intro r hr
    simpa using h r hr
  induction table with
  | nil => simp [insertItem]
  | cons r rest ih =>
    have hr : r.key ≠ item.key := h r (List.mem_cons_self _ _)
    have hrest : ∀ x ∈ rest, x.key ≠ item.key := fun x hx => h x (List.mem_cons_of_mem _ hx)
    have h0' : rest.countP (fun r => decide (r.key = item.key)) = 0 := by
      rw [List.countP_eq_zero]
      intro x hx
      simpa using hrest x hx
    rw [insertItem]
    simp only [hr, if_false]
    by_cases hlt : rank item.key < rank r.key
    · simp only [hlt, if_true]
      rw [List.countP_cons_of_pos _ _ (by simp), h0]
    · simp only [hlt, if_false]
      rw [List.countP_cons_of_neg _ _ (by simpa using hr)]
      exact ih hrest h0'

theorem any_key_iff (table : List Item) (k : Key) :
    table.any (fun r => decide (r.key = k)) = true ↔ ∃ r ∈ table, r.key = k := by
  simp

theorem countP_key_of_nodup (table : List Item) (k : Key)
    (hn : (table.map Item.key).Nodup) (hk : ∃ r ∈ table, r.key = k) :
    table.countP (fun r => r.key = k) = 1 := by
  induction table with
  | nil => simp at hk
  | cons r rest ih =>
    rw [List.map_cons, List.nodup_cons] at hn
    by_cases hr : r.key = k
    · rw [List.countP_cons_of_pos _ _ (by simpa using hr)]
      have : rest.countP (fun r => decide (r.key = k)) = 0 := by
        rw [List.countP_eq_zero]
        intro x hx
        simp only [decide_eq_true_eq]
        intro hxk
        exact hn.1 (List.mem_map.mpr ⟨x, hx, hxk.trans hr.symm⟩)
      rw [this]
    · rw [List.countP_cons_of_neg _ _ (by simpa using hr)]
      apply ih hn.2
      obtain ⟨x, hx, hxk⟩ := hk
      rcases List.mem_cons.mp hx with rfl | hx'
      · exact absurd hxk hr
      · exact ⟨x, hx', hxk⟩

theorem putItem_present (rank : Key → Nat) (limit : Nat) (item : Item) (s : Store)
    (h : ∃ r ∈ s.table, r.key = item.key) :
    putItem (tableClient rank limit) item s =
      (some conditionalCheckFailed,
        { s with log := s.log ++ [Request.put item (some "attribute_not_exists(PK)")] }) := by
  have := (any_key_iff s.table item.key).mpr h
  simp only [putItem, tableClient, this, and_self, if_true]

theorem putItem_absent (rank : Key → Nat) (limit : Nat) (item : Item) (s : Store)
    (h : ¬ ∃ r ∈ s.table, r.key = item.key) :
    putItem (tableClient rank limit) item s =
      (none, { table := insertItem rank item s.table,
               log := s.log ++ [Request.put item (some "attribute_not_exists(PK)")] }) := by
  have : ¬ (s.table.any (fun r => decide (r.key = item.key)) = true) := by
    rw [any_key_iff]; exact h
  simp only [Bool.not_eq_true] at this
  simp only [putItem, tableClient, this, Bool.false_eq_true, and_false, if_false]

theorem mem_insertItem_self (rank : Key → Nat) (item : Item) (table : List Item) :
    item ∈ insertItem rank item table := by
  induction table with
  | nil => simp [insertItem]
  | cons r rest ih =>
    rw [insertItem]
    split
    · simp
    · split
      · simp
      · exact List.mem_cons_of_mem _ ih

/-- C2: on the table store, whose conditional put succeeds only when no row has
the same `(PK, SK)`, two calls of `putItem` with the same row in a row make the
second call fail with an error that `IsConditionalCheckFailure` classifies as a
conditional-check failure; after the two calls exactly one row has that key; and
a failed `putItem` leaves the table unchanged. -/
theorem C2_putItem_twice (rank : Key → Nat) (limit : Nat) (s : Store) (r : Item)
    (hn : (s.table.map Item.key).Nodup) :
    (∃ err, (putItem (tableClient rank limit) r (putItem (tableClient rank limit) r s).2).1 = some err ∧
      IsConditionalCheckFailure err = some true) ∧
    ((putItem (tableClient rank limit) r (putItem (tableClient rank limit) r s).2).2.table.countP
      (fun x => x.key = r.key) = 1) ∧
    (∀ (s' : Store) (r' : Item), (putItem (tableClient rank limit) r' s').1 ≠ none →
      (putItem (tableClient rank limit) r' s').2.table = s'.table) := by
  have hcls : IsConditionalCheckFailure conditionalCheckFailed = some true := by decide
  have h1 : ∃ x ∈ (putItem (tableClient rank limit) r s).2.table, x.key = r.key := by
    by_cases hp : ∃ x ∈ s.table, x.key = r.key
    · rw [putItem_present rank limit r s hp]
      exact hp
    · rw [putItem_absent rank limit r s hp]
      exact ⟨r, mem_insertItem_self rank r s.table, rfl⟩
  have h2 := putItem_present rank limit r (putItem (tableClient rank limit) r s).2 h1
  refine ⟨?_, ?_, ?_⟩
  · rw [h2]
    exact ⟨_, rfl, hcls⟩
  · rw [h2]
    by_cases hp : ∃ x ∈ s.table, x.key = r.key
    · rw [putItem_present rank limit r s hp]
      exact countP_key_of_nodup s.table r.key hn hp
    · rw [putItem_absent rank limit r s hp]
      apply countP_insertItem
      intro x hx hxk
      exact hp ⟨x, hx, hxk⟩
  · intro s' r' hne
    by_cases hp : ∃ x ∈ s'.table, x.key = r'.key
    · rw [putItem_present rank limit r' s' hp]
    · rw [putItem_absent rank limit r' s' hp] at hne
      exact absurd rfl hne

/-- Witness for C2: the row of `putItemConditionCheckFailureExample` put twice
into the empty table. -/
theorem C2_putItem_twice_witness :
    ((([] : List Item).map Item.key).Nodup) ∧
    (putItem (tableClient sampleRank 1) exampleItem
      (putItem (tableClient sampleRank 1) exampleItem ⟨[], []⟩).2).2.table.countP
        (fun x => x.key = exampleItem.key) = 1 :=
  ⟨List.nodup_nil, (C2_putItem_twice sampleRank 1 ⟨[], []⟩ exampleItem List.nodup_nil).2.1⟩

/-! ## The scan loop on the chain store -/

theorem updateItems_chain (pages : List (List Item)) (uname : String) (items : List Item)
    (log : List (Request Nat)) :
    updateItems (chainClient pages) uname items log =
      (none, log ++ items.map (updateRequest uname)) := by
  induction items generalizing log with
  | nil => simp [updateItems]
  | cons item rest ih =>
    rw [updateItems]
    simp only [chainClient]
    have := ih (log ++ [Request.update ⟨item.PK, item.SK⟩ uname "filled"])
    simp only [chainClient] at this
    rw [this]
    simp [updateRequest]

theorem deleteItems_chain (pages : List (List Item)) (unames : List String) (items : List Item)
    (log : List (Request Nat)) (hc : ∀ item ∈ items, checkItem unames item = true) :
    deleteItems (chainClient pages) unames items log =
      (none, log ++ items.map deleteRequest) := by
  induction items generalizing log with
  | nil => simp [deleteItems]
  | cons item rest ih =>
    rw [deleteItems]
    have h1 := hc item (List.mem_cons_self _ _)
    simp only [h1, Bool.not_true, Bool.false_eq_true, if_false, chainClient]
    have := ih (log ++ [Request.delete ⟨item.PK, item.SK⟩])
      (fun x hx => hc x (List.mem_cons_of_mem _ hx))
    simp only [chainClient] at this
    rw [this]
    simp [deleteRequest]

theorem drop_eq_getD_cons {α : Type} (l : List α) (k : Nat) (d : α) (h : k < l.length) :
    l.drop k = l.getD k d :: l.drop (k + 1) := by
  rw [List.getD_eq_getElem _ _ h]
  exact List.drop_eq_getElem_cons h

theorem updateLoop_chain (pages : List (List Item)) (uname : String) (fuel k : Nat)
    (rng : Rng) (log : List (Request Nat))
    (hk : k < pages.length) (hf : pages.length - k ≤ fuel) :
    ∃ shuffled : List (List Item), List.Forall₂ List.Perm shuffled (pages.drop k) ∧
      updateLoop (chainClient pages) uname fuel (startOf k) rng log =
        (Outcome.returned none, log ++ passLog (updateRequest uname) k shuffled) := by
  induction fuel generalizing k rng log with
  | zero => omega
  | succ fuel ih =>
    obtain ⟨out, h1, hp, _⟩ := ShuffleArray_perm (pages.getD k []) rng
    rcases hsh : ShuffleArray (pages.getD k []) rng with ⟨o, rng'⟩
    rw [hsh] at h1
    simp only at h1
    subst h1
    have hstart : (startOf k).getD 0 = k := by
      unfold startOf
      by_cases h0 : k = 0 <;> simp [h0]
    rw [drop_eq_getD_cons pages k [] hk]
    by_cases hlast : k + 1 < pages.length
    · obtain ⟨rest, hrest, hrun⟩ := ih (k + 1) rng'
        ((log ++ [Request.scan (startOf k)]) ++ out.map (updateRequest uname)) hlast (by omega)
      refine ⟨out :: rest, List.Forall₂.cons hp hrest, ?_⟩
      rw [updateLoop]
      simp only [chainClient, hstart, hsh, hlast, if_true]
      have hu := updateItems_chain pages uname out (log ++ [Request.scan (startOf k)])
      simp only [chainClient] at hu
      rw [hu]
      simp only
      have hs1 : startOf (k + 1) = some (k + 1) := by simp [startOf]
      rw [hs1] at hrun
      simp only [chainClient] at hrun
      rw [hrun]
      simp [passLog]
    · refine ⟨[out], ?_, ?_⟩
      · have : pages.drop (k + 1) = [] := List.drop_eq_nil_of_le (by omega)
        rw [this]
        exact List.Forall₂.cons hp List.Forall₂.nil
      · rw [updateLoop]
        simp only [chainClient, hstart, hsh, hlast, if_false]
        have hu := updateItems_chain pages uname out (log ++ [Request.scan (startOf k)])
        simp only [chainClient] at hu
        rw [hu]
        simp [passLog]

theorem deleteLoop_chain (pages : List (List Item)) (unames : List String) (fuel k : Nat)
    (log : List (Request Nat))
    (hc : ∀ page ∈ pages, ∀ item ∈ page, checkItem unames item = true)
    (hk : k < pages.length) (hf : pages.length - k ≤ fuel) :
    deleteLoop (chainClient pages) unames fuel (startOf k) log =
      (Outcome.returned none, log ++ passLog deleteRequest k (pages.drop k)) := by
  induction fuel generalizing k log with
  | zero => omega
  | succ fuel ih =>
    have hstart : (startOf k).getD 0 = k := by
      unfold startOf
      by_cases h0 : k = 0 <;> simp [h0]
    have hpage : ∀ item ∈ pages.getD k [], checkItem unames item = true := by
      apply hc
      rw [List.getD_eq_getElem _ _ hk]
      exact List.getElem_mem _
    rw [drop_eq_getD_cons pages k [] hk]
    have hd := deleteItems_chain pages unames (pages.getD k []) (log ++ [Request.scan (startOf k)]) hpage
    simp only [chainClient] at hd
    by_cases hlast : k + 1 < pages.length
    · have hrun := ih (k + 1)
        ((log ++ [Request.scan (startOf k)]) ++ (pages.getD k []).map deleteRequest) hlast (by omega)
      rw [deleteLoop]
      simp only [chainClient, hstart, hlast, if_true]
      rw [hd]
      simp only
      have hs1 : startOf (k + 1) = some (k + 1) := by simp [startOf]
      rw [hs1] at hrun
      simp only [chainClient] at hrun
      rw [hrun]
      simp [passLog]
    · have : pages.drop (k + 1) = [] := List.drop_eq_nil_of_le (by omega)
      rw [this, deleteLoop]
      simp only [chainClient, hstart, hlast, if_false]
      rw [hd]
      simp [passLog]

theorem scanStarts_passLog (mk : Item → Request Nat) (hmk : ∀ item, (mk item).scanStart = none)
    (k : Nat) (pages : List (List Item)) :
    scanStarts (passLog mk k pages) = (List.range' k pages.length).map startOf := by
  induction pages generalizing k with
  | nil => simp [passLog, scanStarts]
  | cons page rest ih =>
    have hpage : List.filterMap Request.scanStart (page.map mk) = [] := by
      rw [List.filterMap_eq_nil_iff]
      intro r hr
      obtain ⟨item, _, rfl⟩ := List.mem_map.mp hr
      exact hmk item
    have := ih (k + 1)
    unfold scanStarts at this ⊢
    simp only [passLog, List.filterMap_cons, Request.scanStart, List.filterMap_append, hpage,
      List.nil_append, this, List.length_cons, List.range'_succ, List.map_cons]

/-- C6: on a store that serves a chain of `n ≥ 1` pages, with every call
succeeding, `UpdateAllItems` (and `DeleteAllItems` when every check passes)
returns `nil` once given fuel for `n` iterations; it has then issued exactly `n`
scan requests, the first without start key and request `k + 1` with the token
returned by page `k`, each followed by one request per row of its page (for the
update pass in the shuffled order of the page), and page `k` is the one without
token exactly when `k = n - 1`. -/
theorem C6_scan_loop_terminates (first : List Item) (more : List (List Item))
    (uname : String) (unames : List String) (rng : Rng) (fuel : Nat)
    (hf : more.length + 1 ≤ fuel)
    (hc : ∀ page ∈ first :: more, ∀ item ∈ page, checkItem unames item = true) :
    (∃ shuffled : List (List Item), List.Forall₂ List.Perm shuffled (first :: more) ∧
      UpdateAllItems (chainClient (first :: more)) uname fuel rng [] =
        (Outcome.returned none, passLog (updateRequest uname) 0 shuffled) ∧
      scanStarts (passLog (updateRequest uname) 0 shuffled) =
        (List.range (more.length + 1)).map startOf) ∧
    (DeleteAllItems (chainClient (first :: more)) unames fuel [] =
        (Outcome.returned none, passLog deleteRequest 0 (first :: more)) ∧
      scanStarts (passLog deleteRequest 0 (first :: more)) =
        (List.range (more.length + 1)).map startOf) ∧
    (∀ (k : Nat) (log : List (Request Nat)), k < more.length + 1 →
      ∃ out, ((chainClient (first :: more)).Scan (startOf k) log).1 = Except.ok out ∧
        out.Items = (first :: more).getD k [] ∧
        (out.LastEvaluatedKey = none ↔ k = more.length) ∧
        (k < more.length → out.LastEvaluatedKey = startOf (k + 1))) := by
  refine ⟨?_, ⟨?_, ?_⟩, ?_⟩
  · obtain ⟨shuffled, hperm, hrun⟩ :=
      updateLoop_chain (first :: more) uname fuel 0 rng [] (by simp) (by simpa using hf)
    refine ⟨shuffled, by simpa using hperm, ?_, ?_⟩
    · simpa [UpdateAllItems, startOf] using hrun
    · rw [scanStarts_passLog (updateRequest uname) (fun _ => rfl), List.range_eq_range']
      have := hperm.length_eq
      simp only [List.drop_zero, List.length_cons] at this
      rw [this]
  · have := deleteLoop_chain (first :: more) unames fuel 0 [] hc (by simp) (by simpa using hf)
    simpa [DeleteAllItems, startOf] using this
  · rw [scanStarts_passLog deleteRequest (fun _ => rfl), List.range_eq_range']
    simp
  · intro k log hk
    have hstart : (startOf k).getD 0 = k := by
      unfold startOf
      by_cases h0 : k = 0 <;> simp [h0]
    refine ⟨_, rfl, ?_, ?_, ?_⟩
    · simp only [hstart]
    · simp only [hstart, List.length_cons]
      by_cases hl : k + 1 < more.length + 1
      · simp [hl]; omega
      · simp [hl]; omega
    · intro hl
      simp only [hstart, List.length_cons]
      simp [hl, startOf]

/-- Witness for C6: a chain of two pages, three iterations of fuel, no known
writer. -/
theorem C6_scan_loop_terminates_witness :
    DeleteAllItems (chainClient ([seededItem] :: [[exampleItem]])) [] 3 [] =
      (Outcome.returned none, passLog deleteRequest 0 ([seededItem] :: [[exampleItem]])) :=
  (C6_scan_loop_terminates [seededItem] [[exampleItem]] "w" [] (fun _ => 0) 3
    (by decide) (by decide)).2.1.1

/-! ## The table store: scan order -/

theorem filter_not_mem_prefix (rank : Key → Nat) (A B : List Item)
    (h : ScanOrdered rank (A ++ B)) :
    (A ++ B).filter (fun r => decide (r.key ∉ A.map Item.key)) = B := by
  have hAB := (List.pairwise_append.mp h).2.2
  rw [List.filter_append]
  have hA : A.filter (fun r => decide (r.key ∉ A.map Item.key)) = [] := by
    rw [List.filter_eq_nil_iff]
    intro a ha
    simp only [decide_eq_true_eq, not_not]
    exact List.mem_map.mpr ⟨a, ha, rfl⟩
  have hB : B.filter (fun r => decide (r.key ∉ A.map Item.key)) = B := by
    rw [List.filter_eq_self]
    intro b hb
    simp only [decide_eq_true_eq]
    intro hmem
    obtain ⟨a, ha, hak⟩ := List.mem_map.mp hmem
    have := hAB a ha b hb
    rw [hak] at this
    exact lt_irrefl _ this
  rw [hA, hB, List.nil_append]

theorem rank_le_getLast (rank : Key → Nat) (A : List Item) (last : Item)
    (h : ScanOrdered rank A) (hl : A.getLast? = some last) :
    ∀ a ∈ A, rank a.key ≤ rank last.key := by
  obtain ⟨init, rfl⟩ := List.getLast?_eq_some_iff.mp hl
  intro a ha
  rcases List.mem_append.mp ha with hi | hs
  · exact le_of_lt ((List.pairwise_append.mp h).2.2 a hi last (List.mem_singleton.mpr rfl))
  · rw [List.mem_singleton.mp hs]

theorem filter_after_last (rank : Key → Nat) (A B : List Item) (last : Item)
    (h : ScanOrdered rank (A ++ B)) (hl : A.getLast? = some last) :
    (A ++ B).filter (fun r => decide (rank last.key < rank r.key)) = B := by
  have hp := List.pairwise_append.mp h
  have hlast : last ∈ A := List.mem_of_getLast?_eq_some hl
  rw [List.filter_append]
  have hA : A.filter (fun r => decide (rank last.key < rank r.key)) = [] := by
    rw [List.filter_eq_nil_iff]
    intro a ha
    simp only [decide_eq_true_eq, not_lt]
    exact rank_le_getLast rank A last hp.1 hl a ha
  have hB : B.filter (fun r => decide (rank last.key < rank r.key)) = B := by
    rw [List.filter_eq_self]
    intro b hb
    simp only [decide_eq_true_eq]
    exact hp.2.2 last hlast b hb
  rw [hA, hB, List.nil_append]

/-- Rows a scan request with start key `offset` ranges over. -/
theorem tableScan_of_rest (rank : Key → Nat) (limit : Nat) (offset : Option Key)
    (table rest : List Item)
    (h : (match offset with
          | none => table
          | some k => table.filter (fun r => decide (rank k < rank r.key))) = rest) :
    tableScan rank limit offset table =
      ⟨rest.take limit,
        if limit < rest.length then (rest.take limit).getLast?.map Item.key else none⟩ := by
  unfold tableScan
  cases offset with
  | none => simp only at h; subst h; rfl
  | some k => simp only at h; subst h; rfl

/-! ## DeleteAllItems on the table store -/

theorem deleteItems_table_append (rank : Key → Nat) (limit : Nat) (unames : List String)
    (pre rest : List Item) (s : Store) (hpre : ∀ i ∈ pre, checkItem unames i = true) :
    deleteItems (tableClient rank limit) unames (pre ++ rest) s =
      deleteItems (tableClient rank limit) unames rest
        ⟨s.table.filter (fun r => decide (r.key ∉ pre.map Item.key)),
          s.log ++ pre.map deleteRequest⟩ := by
  induction pre generalizing s with
  | nil => simp
  | cons item pre ih =>
    have h1 := hpre item (List.mem_cons_self _ _)
    rw [List.cons_append, deleteItems]
    simp only [h1, Bool.not_true, Bool.false_eq_true, if_false, tableClient]
    have := ih ⟨s.table.filter (fun r => decide (r.key ≠ ⟨item.PK, item.SK⟩)),
      s.log ++ [Request.delete ⟨item.PK, item.SK⟩]⟩ (fun x hx => hpre x (List.mem_cons_of_mem _ hx))
    simp only [tableClient] at this
    rw [this]
    congr 2
    · rw [List.filter_filter]
      congr 1
      funext r
      simp only [List.map_cons, List.mem_cons, not_or, Item.key, Bool.decide_and, ne_eq]
      rw [Bool.and_comm]
    · simp [deleteRequest]

theorem filter_tail_after_last (rank : Key → Nat) (A B : List Item) (last : Item)
    (h : ScanOrdered rank (A ++ B)) (hl : A.getLast? = some last) :
    B.filter (fun r => decide (rank last.key < rank r.key)) = B := by
  rw [List.filter_eq_self]
  intro b hb
  simp only [decide_eq_true_eq]
  exact (List.pairwise_append.mp h).2.2 last (List.mem_of_getLast?_eq_some hl) b hb

theorem deletedKeys_append_map (log : List (Request Key)) (items : List Item) :
    deletedKeys (log ++ items.map deleteRequest) = deletedKeys log ++ items.map Item.key := by
  unfold deletedKeys
  rw [List.filterMap_append]
  congr 1
  induction items with
  | nil => rfl
  | cons i rest ih =>
    simp only [List.map_cons, List.filterMap_cons, deleteRequest, Request.deletedKey, ih, Item.key]

theorem scanStarts_append_map_delete (log : List (Request Key)) (items : List Item) :
    scanStarts (log ++ items.map deleteRequest) = scanStarts log := by
  unfold scanStarts
  rw [List.filterMap_append]
  have : List.filterMap Request.scanStart (items.map (deleteRequest : Item → Request Key)) = [] := by
    rw [List.filterMap_eq_nil_iff]
    intro r hr
    obtain ⟨item, _, rfl⟩ := List.mem_map.mp hr
    rfl
  rw [this, List.append_nil]

theorem deleteLoop_table (rank : Key → Nat) (limit : Nat) (unames : List String)
    (hl : 0 < limit) (fuel : Nat) (offset : Option Key) (pre rest : List Item)
    (log : List (Request Key))
    (hs : ScanOrdered rank (pre ++ rest))
    (hoff : (match offset with
          | none => pre ++ rest
          | some k => (pre ++ rest).filter (fun r => decide (rank k < rank r.key))) = pre ++ rest)
    (hpre : ∀ i ∈ pre, checkItem unames i = true)
    (hrest : ∀ bad ∈ rest.head?, checkItem unames bad = false)
    (hf : (pre ++ rest).length < fuel) :
    ∃ log', deleteLoop (tableClient rank limit) unames fuel offset ⟨pre ++ rest, log⟩ =
        (if rest = [] then Outcome.returned none else Outcome.panicked, ⟨rest, log'⟩) ∧
      deletedKeys log' = deletedKeys log ++ pre.map Item.key ∧
      (scanStarts log').length =
        (scanStarts log).length + (if rest = [] then pre.length - 1 else pre.length) / limit + 1 := by
  induction fuel generalizing offset pre log with
  | zero => omega
  | succ fuel ih =>
    have hscan := tableScan_of_rest rank limit offset (pre ++ rest) (pre ++ rest) hoff
    rw [deleteLoop]
    simp only [tableClient, hscan]
    by_cases hbig : limit ≤ pre.length ∧ limit < (pre ++ rest).length
    · -- the whole page passes and rows remain
      obtain ⟨hle, hlt⟩ := hbig
      obtain ⟨page, pre', rfl, hlen⟩ : ∃ page pre', pre = page ++ pre' ∧ page.length = limit :=
        ⟨pre.take limit, pre.drop limit, (List.take_append_drop _ _).symm,
          by rw [List.length_take]; omega⟩
      have htake : ((page ++ pre') ++ rest).take limit = page := by
        rw [List.append_assoc]; exact List.take_left' hlen
      have hne : page ≠ [] := by
        intro h0; rw [h0] at hlen; simp at hlen; omega
      obtain ⟨last, hlast⟩ : ∃ last, page.getLast? = some last :=
        ⟨page.getLast hne, List.getLast?_eq_getLast _ hne⟩
      have hs' : ScanOrdered rank (page ++ (pre' ++ rest)) := by
        rw [← List.append_assoc]; exact hs
      have hdel := deleteItems_table_append rank limit unames page []
        ⟨(page ++ pre') ++ rest, log ++ [Request.scan offset]⟩
        (fun i hi => hpre i (List.mem_append_left _ hi))
      simp only [List.append_nil, tableClient] at hdel
      have hfilt := filter_not_mem_prefix rank page (pre' ++ rest) hs'
      rw [← List.append_assoc] at hfilt
      obtain ⟨log', hrun, hkeys, hcount⟩ := ih (some last.key) pre'
        ((log ++ [Request.scan offset]) ++ page.map deleteRequest)
        (List.Pairwise.sublist (List.sublist_append_right _ _) hs')
        (filter_tail_after_last rank page (pre' ++ rest) last hs' hlast)
        (fun i hi => hpre i (List.mem_append_right _ hi))
        (by simp only [List.length_append] at hf ⊢; omega)
      refine ⟨log', ?_, ?_, ?_⟩
      · rw [htake, hdel, hfilt]
        simp only [deleteItems, hlt, if_true, hlast, Option.map_some']
        simp only [tableClient] at hrun
        exact hrun
      · rw [hkeys, deletedKeys_append_map]
        simp [deletedKeys, List.filterMap_append, Request.deletedKey]
      · rw [hcount, scanStarts_append_map_delete]
        simp only [scanStarts, List.filterMap_append, List.filterMap_cons, Request.scanStart,
          List.filterMap_nil, List.length_append, List.length_singleton, hlen]
        have hdiv : ∀ x : Nat, limit ≤ x → (x - limit) / limit + 1 = x / limit := by
          intro x hx
          rw [Nat.div_eq x limit]
          simp [hl, hx]
        by_cases hr : rest = []
        · subst hr
          simp only [List.append_nil, List.length_append] at hlt
          simp only [if_true]
          have := hdiv (limit + pre'.length - 1) (by omega)
          have e : limit + pre'.length - 1 - limit = pre'.length - 1 := by omega
          rw [e] at this
          omega
        · simp only [hr, if_false]
          have := hdiv (limit + pre'.length) (by omega)
          have e : limit + pre'.length - limit = pre'.length := by omega
          rw [e] at this
          omega
    · -- the pass ends within this page
      cases rest with
      | nil =>
        simp only [List.append_nil] at hbig hs ⊢
        have hlen : pre.length ≤ limit := by
          by_contra hcon
          exact hbig ⟨by omega, by omega⟩
        have htake : pre.take limit = pre := List.take_of_length_le hlen
        have hdel := deleteItems_table_append rank limit unames pre []
          ⟨pre, log ++ [Request.scan offset]⟩ hpre
        simp only [List.append_nil, tableClient] at hdel
        have hfilt := filter_not_mem_prefix rank pre [] (by simpa using hs)
        simp only [List.append_nil] at hfilt
        refine ⟨(log ++ [Request.scan offset]) ++ pre.map deleteRequest, ?_, ?_, ?_⟩
        · rw [htake, hdel, hfilt]
          have : ¬ limit < pre.length := by omega
          simp [deleteItems, this]
        · rw [deletedKeys_append_map]
          simp [deletedKeys, List.filterMap_append, Request.deletedKey]
        · rw [scanStarts_append_map_delete]
          simp only [scanStarts, List.filterMap_append, List.filterMap_cons, Request.scanStart,
            List.filterMap_nil, List.length_append, List.length_singleton, if_true]
          have : (pre.length - 1) / limit = 0 := Nat.div_eq_of_lt (by omega)
          omega
      | cons bad post =>
        have hlen : pre.length < limit := by
          by_contra hcon
          apply hbig
          simp only [List.length_append, List.length_cons]
          omega
        have hbad : checkItem unames bad = false := hrest bad (by simp)
        obtain ⟨m, hm⟩ : ∃ m, limit - pre.length = m + 1 := ⟨limit - pre.length - 1, by omega⟩
        have htake : (pre ++ bad :: post).take limit = pre ++ bad :: post.take m := by
          rw [List.take_append_eq_append_take, List.take_of_length_le (le_of_lt hlen), hm,
            List.take_succ_cons]
        have hdel := deleteItems_table_append rank limit unames pre (bad :: post.take m)
          ⟨pre ++ bad :: post, log ++ [Request.scan offset]⟩ hpre
        simp only [tableClient] at hdel
        have hfilt := filter_not_mem_prefix rank pre (bad :: post) hs
        refine ⟨(log ++ [Request.scan offset]) ++ pre.map deleteRequest, ?_, ?_, ?_⟩
        · rw [htake, hdel, hfilt]
          simp [deleteItems, hbad]
        · rw [deletedKeys_append_map]
          simp [deletedKeys, List.filterMap_append, Request.deletedKey]
        · rw [scanStarts_append_map_delete]
          simp only [scanStarts, List.filterMap_append, List.filterMap_cons, Request.scanStart,
            List.filterMap_nil, List.length_append, List.length_singleton]
          have : pre.length / limit = 0 := Nat.div_eq_of_lt hlen
          simp [this]

theorem deleteItems_append_of_none {σ τ : Type} (d : Client σ τ) (unames : List String)
    (pre rest : List Item) (s1 s2 : σ) (h : deleteItems d unames pre s1 = (none, s2)) :
    deleteItems d unames (pre ++ rest) s1 = deleteItems d unames rest s2 := by
  induction pre generalizing s1 with
  | nil =>
    simp only [deleteItems, Prod.mk.injEq, true_and] at h
    rw [h, List.nil_append]
  | cons item pre ih =>
    rw [deleteItems] at h
    rw [List.cons_append, deleteItems]
    by_cases hc : checkItem unames item = true
    · simp only [hc, Bool.not_true, Bool.false_eq_true, if_false] at h ⊢
      rcases hd : d.DeleteItem ⟨item.PK, item.SK⟩ s1 with ⟨e, s'⟩
      rw [hd] at h
      cases e with
      | none => exact ih s' h
      | some err => simp at h
    · simp only [Bool.not_eq_true] at hc
      simp [hc] at h

/-- C8: when the check fails at a row, the pass aborts there: the rows from the
violating row on are still in the table, the deletes issued are exactly those of
the rows that preceded it in scan order, and no scan request follows the one
that returned the violating row. -/
theorem C8_abort_at_violation (rank : Key → Nat) (limit : Nat) (unames : List String)
    (pre : List Item) (bad : Item) (post : List Item) (fuel : Nat) (log : List (Request Key))
    (hl : 0 < limit) (hs : ScanOrdered rank (pre ++ bad :: post))
    (hpre : ∀ i ∈ pre, checkItem unames i = true) (hbad : checkItem unames bad = false)
    (hf : (pre ++ bad :: post).length < fuel) :
    ∃ log', DeleteAllItems (tableClient rank limit) unames fuel ⟨pre ++ bad :: post, log⟩ =
        (Outcome.panicked, ⟨bad :: post, log'⟩) ∧
      deletedKeys log' = deletedKeys log ++ pre.map Item.key ∧
      (scanStarts log').length = (scanStarts log).length + pre.length / limit + 1 := by
  obtain ⟨log', hrun, hkeys, hcount⟩ := deleteLoop_table rank limit unames hl fuel none pre
    (bad :: post) log hs rfl hpre (by simpa using hbad) hf
  refine ⟨log', ?_, hkeys, ?_⟩
  · simpa [DeleteAllItems] using hrun
  · simpa using hcount

/-- Witness for C8: the seeded row passes with known writer `RandomContent`, the
row with only `PK` and `SK` does not. -/
theorem C8_abort_at_violation_witness :
    ∃ log', DeleteAllItems (tableClient sampleRank 1) ["RandomContent"] 3
        ⟨[seededItem] ++ exampleItem :: [], []⟩ = (Outcome.panicked, ⟨exampleItem :: [], log'⟩) ∧
      deletedKeys log' = deletedKeys ([] : List (Request Key)) ++ [seededItem].map Item.key ∧
      (scanStarts log').length = (scanStarts ([] : List (Request Key))).length + [seededItem].length / 1 + 1 :=
  C8_abort_at_violation sampleRank 1 ["RandomContent"] [seededItem] exampleItem [] 3 []
    (by decide) (by decide) (by decide) (by decide) (by decide)

theorem deleteLoop_deletePages {σ τ : Type} (d : Client σ τ) (unames : List String)
    (m n : Nat) (offset offset' : Option τ) (s s' : σ)
    (h : deletePages d unames m offset s = some (offset', s')) :
    deleteLoop d unames (m + n) offset s = deleteLoop d unames n offset' s' := by
  induction m generalizing offset s with
  | zero =>
    simp only [deletePages, Option.some.injEq, Prod.mk.injEq] at h
    obtain ⟨rfl, rfl⟩ := h
    rw [Nat.zero_add]
  | succ m ih =>
    rw [Nat.succ_add, deleteLoop]
    rw [deletePages] at h
    rcases hscan : d.Scan offset s with ⟨res, s1⟩
    rw [hscan] at h
    cases res with
    | error err => simp at h
    | ok result =>
      simp only at h ⊢
      rcases hdel : deleteItems d unames result.Items s1 with ⟨o, s2⟩
      rw [hdel] at h
      cases o with
      | some out => simp at h
      | none =>
        simp only at h ⊢
        cases hk : result.LastEvaluatedKey with
        | none => rw [hk] at h; simp at h
        | some k =>
          rw [hk] at h
          simp only at h ⊢
          exact ih (some k) s2 h

theorem deleteItems_denying_append (rank : Key → Nat) (limit : Nat) (denied : List Key)
    (unames : List String) (pre rest : List Item) (s : Store)
    (hpre : ∀ i ∈ pre, checkItem unames i = true ∧ i.key ∉ denied) :
    deleteItems (denyingClient rank limit denied) unames (pre ++ rest) s =
      deleteItems (denyingClient rank limit denied) unames rest
        ⟨s.table.filter (fun r => decide (r.key ∉ pre.map Item.key)),
          s.log ++ pre.map deleteRequest⟩ := by
  induction pre generalizing s with
  | nil => simp
  | cons item pre ih =>
    obtain ⟨h1, h2⟩ := hpre item (List.mem_cons_self _ _)
    have h2' : (⟨item.PK, item.SK⟩ : Key) ∉ denied := h2
    rw [List.cons_append, deleteItems]
    simp only [h1, Bool.not_true, Bool.false_eq_true, if_false, denyingClient, tableClient, h2']
    have := ih ⟨s.table.filter (fun r => decide (r.key ≠ ⟨item.PK, item.SK⟩)),
      s.log ++ [Request.delete ⟨item.PK, item.SK⟩]⟩ (fun x hx => hpre x (List.mem_cons_of_mem _ hx))
    simp only [denyingClient, tableClient] at this
    rw [this]
    congr 2
    · rw [List.filter_filter]
      congr 1
      funext r
      simp only [List.map_cons, List.mem_cons, not_or, Item.key, Bool.decide_and, ne_eq]
      rw [Bool.and_comm]
    · simp [deleteRequest]

theorem deleteLoop_denying (rank : Key → Nat) (limit : Nat) (denied : List Key)
    (unames : List String) (hl : 0 < limit) (fuel : Nat) (offset : Option Key)
    (pre rest : List Item) (log : List (Request Key))
    (hs : ScanOrdered rank (pre ++ rest))
    (hoff : (match offset with
          | none => pre ++ rest
          | some k => (pre ++ rest).filter (fun r => decide (rank k < rank r.key))) = pre ++ rest)
    (hpre : ∀ i ∈ pre, checkItem unames i = true ∧ i.key ∉ denied)
    (hrest : ∀ bad ∈ rest.head?, checkItem unames bad = true ∧ bad.key ∈ denied)
    (hf : (pre ++ rest).length < fuel) :
    ∃ log', deleteLoop (denyingClient rank limit denied) unames fuel offset ⟨pre ++ rest, log⟩ =
        (if rest = [] then Outcome.returned none else Outcome.returned (some accessDenied),
          ⟨rest, log'⟩) ∧
      deletedKeys log' = deletedKeys log ++ pre.map Item.key ++ (rest.head?.map Item.key).toList ∧
      (scanStarts log').length =
        (scanStarts log).length + (if rest = [] then pre.length - 1 else pre.length) / limit + 1 := by
  induction fuel generalizing offset pre log with
  | zero => omega
  | succ fuel ih =>
    have hscan := tableScan_of_rest rank limit offset (pre ++ rest) (pre ++ rest) hoff
    rw [deleteLoop]
    simp only [denyingClient, tableClient, hscan]
    by_cases hbig : limit ≤ pre.length ∧ limit < (pre ++ rest).length
    · obtain ⟨hle, hlt⟩ := hbig
      obtain ⟨page, pre', rfl, hlen⟩ : ∃ page pre', pre = page ++ pre' ∧ page.length = limit :=
        ⟨pre.take limit, pre.drop limit, (List.take_append_drop _ _).symm,
          by rw [List.length_take]; omega⟩
      have htake : ((page ++ pre') ++ rest).take limit = page := by
        rw [List.append_assoc]; exact List.take_left' hlen
      have hne : page ≠ [] := by
        intro h0; rw [h0] at hlen; simp at hlen; omega
      obtain ⟨last, hlast⟩ : ∃ last, page.getLast? = some last :=
        ⟨page.getLast hne, List.getLast?_eq_getLast _ hne⟩
      have hs' : ScanOrdered rank (page ++ (pre' ++ rest)) := by
        rw [← List.append_assoc]; exact hs
      have hdel := deleteItems_denying_append rank limit denied unames page []
        ⟨(page ++ pre') ++ rest, log ++ [Request.scan offset]⟩
        (fun i hi => hpre i (List.mem_append_left _ hi))
      simp only [List.append_nil, denyingClient, tableClient] at hdel
      have hfilt := filter_not_mem_prefix rank page (pre' ++ rest) hs'
      rw [← List.append_assoc] at hfilt
      obtain ⟨log', hrun, hkeys, hcount⟩ := ih (some last.key) pre'
        ((log ++ [Request.scan offset]) ++ page.map deleteRequest)
        (List.Pairwise.sublist (List.sublist_append_right _ _) hs')
        (filter_tail_after_last rank page (pre' ++ rest) last hs' hlast)
        (fun i hi => hpre i (List.mem_append_right _ hi))
        (by simp only [List.length_append] at hf ⊢; omega)
      refine ⟨log', ?_, ?_, ?_⟩
      · rw [htake, hdel, hfilt]
        simp only [deleteItems, hlt, if_true, hlast, Option.map_some']
        simp only [denyingClient, tableClient] at hrun
        exact hrun
      · rw [hkeys, deletedKeys_append_map]
        simp [deletedKeys, List.filterMap_append, Request.deletedKey]
      · rw [hcount, scanStarts_append_map_delete]
        simp only [scanStarts, List.filterMap_append, List.filterMap_cons, Request.scanStart,
          List.filterMap_nil, List.length_append, List.length_singleton, hlen]
        have hdiv : ∀ x : Nat, limit ≤ x → (x - limit) / limit + 1 = x / limit := by
          intro x hx
          rw [Nat.div_eq x limit]
          simp [hl, hx]
        by_cases hr : rest = []
        · subst hr
          simp only [List.append_nil, List.length_append] at hlt
          simp only [if_true]
          have := hdiv (limit + pre'.length - 1) (by omega)
          have e : limit + pre'.length - 1 - limit = pre'.length - 1 := by omega
          rw [e] at this
          omega
        · simp only [hr, if_false]
          have := hdiv (limit + pre'.length) (by omega)
          have e : limit + pre'.length - limit = pre'.length := by omega
          rw [e] at this
          omega
    · cases rest with
      | nil =>
        simp only [List.append_nil] at hbig hs ⊢
        have hlen : pre.length ≤ limit := by
          by_contra hcon
          exact hbig ⟨by omega, by omega⟩
        have htake : pre.take limit = pre := List.take_of_length_le hlen
        have hdel := deleteItems_denying_append rank limit denied unames pre []
          ⟨pre, log ++ [Request.scan offset]⟩ hpre
        simp only [List.append_nil, denyingClient, tableClient] at hdel
        have hfilt := filter_not_mem_prefix rank pre [] (by simpa using hs)
        simp only [List.append_nil] at hfilt
        refine ⟨(log ++ [Request.scan offset]) ++ pre.map deleteRequest, ?_, ?_, ?_⟩
        · rw [htake, hdel, hfilt]
          have : ¬ limit < pre.length := by omega
          simp [deleteItems, this]
        · rw [deletedKeys_append_map]
          simp [deletedKeys, List.filterMap_append, Request.deletedKey]
        · rw [scanStarts_append_map_delete]
          simp only [scanStarts, List.filterMap_append, List.filterMap_cons, Request.scanStart,
            List.filterMap_nil, List.length_append, List.length_singleton, if_true]
          have : (pre.length - 1) / limit = 0 := Nat.div_eq_of_lt (by omega)
          omega
      | cons bad post =>
        have hlen : pre.length < limit := by
          by_contra hcon
          apply hbig
          simp only [List.length_append, List.length_cons]
          omega
        obtain ⟨hbad, hden⟩ := hrest bad (by simp)
        have hden' : (⟨bad.PK, bad.SK⟩ : Key) ∈ denied := hden
        obtain ⟨m, hm⟩ : ∃ m, limit - pre.length = m + 1 := ⟨limit - pre.length - 1, by omega⟩
        have htake : (pre ++ bad :: post).take limit = pre ++ bad :: post.take m := by
          rw [List.take_append_eq_append_take, List.take_of_length_le (le_of_lt hlen), hm,
            List.take_succ_cons]
        have hdel := deleteItems_denying_append rank limit denied unames pre (bad :: post.take m)
          ⟨pre ++ bad :: post, log ++ [Request.scan offset]⟩ hpre
        simp only [denyingClient, tableClient] at hdel
        have hfilt := filter_not_mem_prefix rank pre (bad :: post) hs
        refine ⟨((log ++ [Request.scan offset]) ++ pre.map deleteRequest) ++
          [Request.delete ⟨bad.PK, bad.SK⟩], ?_, ?_, ?_⟩
        · rw [htake, hdel, hfilt]
          simp [deleteItems, hbad, hden']
        · have h1 : deletedKeys (((log ++ [Request.scan offset]) ++ pre.map deleteRequest) ++
              [Request.delete ⟨bad.PK, bad.SK⟩]) =
              deletedKeys ((log ++ [Request.scan offset]) ++ pre.map deleteRequest) ++
                [⟨bad.PK, bad.SK⟩] := by
            simp [deletedKeys, List.filterMap_append, Request.deletedKey]
          rw [h1, deletedKeys_append_map]
          simp [deletedKeys, List.filterMap_append, Request.deletedKey, Item.key]
        · have h1 : scanStarts (((log ++ [Request.scan offset]) ++ pre.map deleteRequest) ++
              [Request.delete ⟨bad.PK, bad.SK⟩]) =
              scanStarts ((log ++ [Request.scan offset]) ++ pre.map deleteRequest) := by
            simp [scanStarts, List.filterMap_append, Request.scanStart]
          rw [h1, scanStarts_append_map_delete]
          simp only [scanStarts, List.filterMap_append, List.filterMap_cons, Request.scanStart,
            List.filterMap_nil, List.length_append, List.length_singleton]
          have : pre.length / limit = 0 := Nat.div_eq_of_lt hlen
          simp [this]

/-- C9: when the check passes at every row and every call succeeds,
`DeleteAllItems` issues exactly one delete per row, keyed by the row's
`(PK, SK)`, returns `nil` and leaves a table with no row, so that a further scan
returns no row and no token. When instead a delete call fails, on whatever page
of the pass, its error is returned at once: on any store, after any number of
pages deleted in full, the pass ends with that error and the store as the
failing call left it; and on the table store that refuses the delete of one row,
the rows from that row on are still in the table, the deletes received are those
of the rows before it and the refused one, and no scan follows the one that
returned the row. -/
theorem C9_delete_all (rank : Key → Nat) (limit : Nat) (unames : List String)
    (table : List Item) (fuel : Nat) (log : List (Request Key))
    (hl : 0 < limit) (hs : ScanOrdered rank table)
    (hc : ∀ i ∈ table, checkItem unames i = true) (hf : table.length < fuel) :
    (∃ log', DeleteAllItems (tableClient rank limit) unames fuel ⟨table, log⟩ =
        (Outcome.returned none, ⟨[], log'⟩) ∧
      deletedKeys log' = deletedKeys log ++ table.map Item.key ∧
      ∃ out, ((tableClient rank limit).Scan none ⟨[], log'⟩).1 = Except.ok out ∧
        out.Items = [] ∧ out.LastEvaluatedKey = none) ∧
    (∀ (σ τ : Type) (d : Client σ τ) (m n : Nat) (offset0 offset : Option τ)
      (s0 s s1 s2 s3 : σ) (result : ScanOutput τ) (before : List Item) (item : Item)
      (after : List Item) (err : GoError),
      deletePages d unames m offset0 s0 = some (offset, s) →
      d.Scan offset s = (Except.ok result, s1) → result.Items = before ++ item :: after →
      deleteItems d unames before s1 = (none, s2) → checkItem unames item = true →
      d.DeleteItem ⟨item.PK, item.SK⟩ s2 = (some err, s3) →
      deleteLoop d unames (m + (n + 1)) offset0 s0 = (Outcome.returned (some err), s3)) ∧
    (∀ (denied : List Key) (pre : List Item) (bad : Item) (post : List Item),
      table = pre ++ bad :: post → (∀ i ∈ pre, i.key ∉ denied) → bad.key ∈ denied →
      ∃ log', DeleteAllItems (denyingClient rank limit denied) unames fuel ⟨table, log⟩ =
          (Outcome.returned (some accessDenied), ⟨bad :: post, log'⟩) ∧
        deletedKeys log' = deletedKeys log ++ pre.map Item.key ++ [bad.key] ∧
        (scanStarts log').length = (scanStarts log).length + pre.length / limit + 1) := by
  refine ⟨?_, ?_, ?_⟩
  · obtain ⟨log', hrun, hkeys, _⟩ := deleteLoop_table rank limit unames hl fuel none table
      [] log (by simpa using hs) (by simp) hc (by simp) (by simpa using hf)
    refine ⟨log', ?_, by simpa using hkeys, ⟨_, rfl, ?_, ?_⟩⟩
    · simpa [DeleteAllItems] using hrun
    · simp [tableScan]
    · simp [tableScan]
  · intro σ τ d m n offset0 offset s0 s s1 s2 s3 result before item after err hpages hscan
      hitems hbefore hcheck hdel
    rw [deleteLoop_deletePages d unames m (n + 1) offset0 offset s0 s hpages, deleteLoop, hscan]
    simp only
    rw [hitems, deleteItems_append_of_none d unames before (item :: after) s1 s2 hbefore,
      deleteItems]
    simp [hcheck, hdel]
  · intro denied pre bad post htable hpre hbad
    subst htable
    obtain ⟨log', hrun, hkeys, hcount⟩ := deleteLoop_denying rank limit denied unames hl fuel
      none pre (bad :: post) log hs rfl
      (fun i hi => ⟨hc i (List.mem_append_left _ hi), hpre i hi⟩)
      (by
        intro b hb
        simp only [List.head?_cons, Option.mem_def, Option.some.injEq] at hb
        subst hb
        exact ⟨hc _ (List.mem_append_right _ (List.mem_cons_self _ _)), hbad⟩)
      hf
    refine ⟨log', ?_, ?_, ?_⟩
    · simpa [DeleteAllItems] using hrun
    · simpa using hkeys
    · simpa using hcount

/-- Witness for C9: the table of the seeded row and the example row, one row per
page, deleted with no known writer; and the same pass on the store that refuses
the delete of the example row, the row of the second page. -/
theorem C9_delete_all_witness :
    (∃ log', DeleteAllItems (tableClient sampleRank 1) [] 3 ⟨[seededItem, exampleItem], []⟩ =
        (Outcome.returned none, ⟨[], log'⟩) ∧
      deletedKeys log' = deletedKeys ([] : List (Request Key)) ++ [seededItem, exampleItem].map Item.key) ∧
    (∃ log', DeleteAllItems (denyingClient sampleRank 1 [exampleItem.key]) [] 3
        ⟨[seededItem, exampleItem], []⟩ =
        (Outcome.returned (some accessDenied), ⟨exampleItem :: [], log'⟩) ∧
      deletedKeys log' = deletedKeys ([] : List (Request Key)) ++ [seededItem].map Item.key ++
        [exampleItem.key] ∧
      (scanStarts log').length =
        (scanStarts ([] : List (Request Key))).length + [seededItem].length / 1 + 1) ∧
    DeleteAllItems (denyingClient sampleRank 1 [exampleItem.key]) [] 3
        ⟨[seededItem, exampleItem], []⟩ =
      (Outcome.returned (some accessDenied),
        ⟨[exampleItem], [Request.scan none, Request.delete ⟨"PK-0", "A"⟩,
          Request.scan (some ⟨"PK-0", "A"⟩), Request.delete ⟨"ITEM#123", "A"⟩]⟩) := by
  have h := C9_delete_all sampleRank 1 [] [seededItem, exampleItem] 3 []
    (by decide) (by decide) (by decide) (by decide)
  obtain ⟨⟨log', h1, h2, _⟩, h3, h4⟩ := h
  refine ⟨⟨log', h1, h2⟩, ?_, ?_⟩
  · exact h4 [exampleItem.key] [seededItem] exampleItem [] rfl (by decide) (by decide)
  · exact h3 Store Key (denyingClient sampleRank 1 [exampleItem.key]) 1 1 none
      (some ⟨"PK-0", "A"⟩) ⟨[seededItem, exampleItem], []⟩
      ⟨[exampleItem], [Request.scan none, Request.delete ⟨"PK-0", "A"⟩]⟩
      ⟨[exampleItem], [Request.scan none, Request.delete ⟨"PK-0", "A"⟩,
        Request.scan (some ⟨"PK-0", "A"⟩)]⟩
      ⟨[exampleItem], [Request.scan none, Request.delete ⟨"PK-0", "A"⟩,
        Request.scan (some ⟨"PK-0", "A"⟩)]⟩
      ⟨[exampleItem], [Request.scan none, Request.delete ⟨"PK-0", "A"⟩,
        Request.scan (some ⟨"PK-0", "A"⟩), Request.delete ⟨"ITEM#123", "A"⟩]⟩
      ⟨[exampleItem], none⟩ [] exampleItem [] accessDenied
      rfl rfl rfl rfl (by decide) rfl

/-! ## UpdateAllItems on the table store -/

theorem setAttr_idem (attrs : List (String × String)) (name value : String) :
    setAttr (setAttr attrs name value) name value = setAttr attrs name value := by
  induction attrs with
  | nil => simp [setAttr]
  | cons a rest ih =>
    obtain ⟨n, v⟩ := a
    by_cases h : n = name
    · simp [setAttr, h]
    · simp [setAttr, h, ih]

theorem getAttr_setAttr_same (attrs : List (String × String)) (name value : String) :
    getAttr (setAttr attrs name value) name = some value := by
  induction attrs with
  | nil => simp [setAttr, getAttr]
  | cons a rest ih =>
    obtain ⟨n, v⟩ := a
    by_cases h : n = name
    · simp [setAttr, getAttr, h]
    · simp [setAttr, getAttr, h, ih]

theorem getAttr_setAttr_other (attrs : List (String × String)) (name value other : String)
    (h : other ≠ name) :
    getAttr (setAttr attrs name value) other = getAttr attrs other := by
  induction attrs with
  | nil =>
    simp only [setAttr, getAttr]
    rw [if_neg (fun hh => h hh.symm)]
  | cons a rest ih =>
    obtain ⟨n, v⟩ := a
    by_cases hn : n = name
    · have hno : ¬ n = other := fun hh => h (hh.symm.trans hn)
      simp only [setAttr, hn, if_true, getAttr]
      rw [hn] at hno
      simp only [hno, if_false]
    · by_cases ho : n = other
      · subst ho
        simp only [setAttr, hn, if_false, getAttr, if_true]
      · simp only [setAttr, hn, if_false, getAttr, ho, ih]

theorem item_setAttr_twice (item : Item) (name value : String) :
    (item.setAttr name value).setAttr name value = item.setAttr name value := by
  simp [Item.setAttr, Tooling.setAttr_idem]

theorem Item.key_setAttr (item : Item) (name value : String) :
    (item.setAttr name value).key = item.key := rfl

/-- Rows of `table` whose key is in `keys` get the attribute set. -/
theorem updateItems_table (rank : Key → Nat) (limit : Nat) (uname : String)
    (hu : ¬ (uname = "PK" ∨ uname = "SK")) (items : List Item) (s : Store)
    (hin : ∀ i ∈ items, ∃ r ∈ s.table, r.key = i.key) :
    updateItems (tableClient rank limit) uname items s =
      (none, ⟨s.table.map (fun r =>
          if r.key ∈ items.map Item.key then r.setAttr uname "filled" else r),
        s.log ++ items.map (updateRequest uname)⟩) := by
  induction items generalizing s with
  | nil => simp [updateItems]
  | cons item rest ih =>
    have hany : s.table.any (fun r => decide (r.key = (⟨item.PK, item.SK⟩ : Key))) = true := by
      rw [any_key_iff]
      exact hin item (List.mem_cons_self _ _)
    rw [updateItems]
    simp only [tableClient, hu, if_false, tableUpdate, hany, if_true]
    have hin' : ∀ i ∈ rest, ∃ r ∈ (s.table.map (fun r =>
        if r.key = (⟨item.PK, item.SK⟩ : Key) then r.setAttr uname "filled" else r)),
        r.key = i.key := by
      intro i hi
      obtain ⟨r, hr, hk⟩ := hin i (List.mem_cons_of_mem _ hi)
      refine ⟨_, List.mem_map.mpr ⟨r, hr, rfl⟩, ?_⟩
      split
      · rw [Item.key_setAttr]; exact hk
      · exact hk
    have := ih ⟨s.table.map (fun r =>
        if r.key = (⟨item.PK, item.SK⟩ : Key) then r.setAttr uname "filled" else r),
      s.log ++ [Request.update ⟨item.PK, item.SK⟩ uname "filled"]⟩ hin'
    simp only [tableClient, hu, if_false, tableUpdate] at this
    rw [this]
    congr 2
    · rw [List.map_map]
      apply List.map_congr_left
      intro r _
      simp only [Function.comp, List.map_cons, List.mem_cons]
      have hkey : (⟨item.PK, item.SK⟩ : Key) = item.key := rfl
      rw [hkey]
      by_cases h1 : r.key = item.key
      · by_cases h2 : r.key ∈ rest.map Item.key
        · simp [h1, h2, Item.key_setAttr, item_setAttr_twice]
        · simp only [h1, true_or, if_true, Item.key_setAttr]
          rw [← h1]
          simp [h2]
      · simp [h1]
    · simp [updateRequest]

theorem scanOrdered_map (rank : Key → Nat) (table : List Item) (g : Item → Item)
    (hg : ∀ r, (g r).key = r.key) (hs : ScanOrdered rank table) :
    ScanOrdered rank (table.map g) := by
  unfold ScanOrdered
  rw [List.pairwise_map]
  simpa [hg] using hs

theorem map_page (rank : Key → Nat) (done page tail out : List Item) (g : Item → Item)
    (hs : ScanOrdered rank (done ++ (page ++ tail))) (hperm : out.Perm page) :
    (done ++ (page ++ tail)).map (fun r => if r.key ∈ out.map Item.key then g r else r) =
      done ++ (page.map g ++ tail) := by
  have hp := List.pairwise_append.mp hs
  have hp2 := List.pairwise_append.mp hp.2.1
  have hmem : ∀ k, k ∈ out.map Item.key ↔ k ∈ page.map Item.key := fun k =>
    (hperm.map Item.key).mem_iff
  rw [List.map_append, List.map_append]
  congr 1
  · conv_rhs => rw [← List.map_id done]
    apply List.map_congr_left
    intro r hr
    have : r.key ∉ out.map Item.key := by
      rw [hmem]
      intro hk
      obtain ⟨i, hi, hik⟩ := List.mem_map.mp hk
      have := hp.2.2 r hr i (List.mem_append_left _ hi)
      rw [hik] at this
      exact lt_irrefl _ this
    simp [this]
  · congr 1
    · apply List.map_congr_left
      intro r hr
      have : r.key ∈ out.map Item.key := by
        rw [hmem]
        exact List.mem_map.mpr ⟨r, hr, rfl⟩
      simp [this]
    · conv_rhs => rw [← List.map_id tail]
      apply List.map_congr_left
      intro r hr
      have : r.key ∉ out.map Item.key := by
        rw [hmem]
        intro hk
        obtain ⟨i, hi, hik⟩ := List.mem_map.mp hk
        have := hp2.2.2 i hi r hr
        rw [hik] at this
        exact lt_irrefl _ this
      simp [this]

theorem updatesOf_append_map (uname : String) (log : List (Request Key)) (items : List Item) :
    updatesOf (log ++ items.map (updateRequest uname)) =
      updatesOf log ++ items.map (fun r => (r.key, uname, "filled")) := by
  unfold updatesOf
  rw [List.filterMap_append]
  congr 1
  induction items with
  | nil => rfl
  | cons i rest ih =>
    simp only [List.map_cons, List.filterMap_cons, updateRequest, Request.updated, ih, Item.key]

theorem updatesOf_append_scan (log : List (Request Key)) (offset : Option Key) :
    updatesOf (log ++ [Request.scan offset]) = updatesOf log := by
  simp [updatesOf, List.filterMap_append, Request.updated]

theorem updateLoop_table (rank : Key → Nat) (limit : Nat) (uname : String)
    (hl : 0 < limit) (hu : ¬ (uname = "PK" ∨ uname = "SK")) (fuel : Nat)
    (offset : Option Key) (rng : Rng) (done todo : List Item) (log : List (Request Key))
    (hs : ScanOrdered rank (done ++ todo))
    (hoff : (match offset with
          | none => done ++ todo
          | some k => (done ++ todo).filter (fun r => decide (rank k < rank r.key))) = todo)
    (hf : todo.length < fuel) :
    ∃ log', updateLoop (tableClient rank limit) uname fuel offset rng ⟨done ++ todo, log⟩ =
        (Outcome.returned none,
          ⟨done ++ todo.map (fun r => r.setAttr uname "filled"), log'⟩) ∧
      (updatesOf log').Perm (updatesOf log ++ todo.map (fun r => (r.key, uname, "filled"))) := by
  induction fuel generalizing offset rng done todo log with
  | zero => omega
  | succ fuel ih =>
    have hscan := tableScan_of_rest rank limit offset (done ++ todo) todo hoff
    rw [updateLoop]
    simp only [tableClient, hscan]
    obtain ⟨out, h1, hperm, _⟩ := ShuffleArray_perm (todo.take limit) rng
    rcases hsh : ShuffleArray (todo.take limit) rng with ⟨o, rng'⟩
    rw [hsh] at h1
    simp only at h1
    subst h1
    simp only
    have hin : ∀ i ∈ out, ∃ r ∈ (⟨done ++ todo, log ++ [Request.scan offset]⟩ : Store).table,
        r.key = i.key := by
      intro i hi
      exact ⟨i, List.mem_append_right _ (List.mem_of_mem_take (hperm.mem_iff.mp hi)), rfl⟩
    have hupd := updateItems_table rank limit uname hu out
      ⟨done ++ todo, log ++ [Request.scan offset]⟩ hin
    simp only [tableClient] at hupd
    rw [hupd]
    simp only
    by_cases hbig : limit < todo.length
    · obtain ⟨page, tail, rfl, hlen⟩ : ∃ page tail, todo = page ++ tail ∧ page.length = limit :=
        ⟨todo.take limit, todo.drop limit, (List.take_append_drop _ _).symm,
          by rw [List.length_take]; omega⟩
      have htake : (page ++ tail).take limit = page := List.take_left' hlen
      rw [htake] at hperm ⊢
      have hne : page ≠ [] := by
        intro h0; rw [h0] at hlen; simp at hlen; omega
      obtain ⟨last, hlast⟩ : ∃ last, page.getLast? = some last :=
        ⟨page.getLast hne, List.getLast?_eq_getLast _ hne⟩
      have htab := map_page rank done page tail out (fun r => r.setAttr uname "filled") hs hperm
      have hs' : ScanOrdered rank ((done ++ page.map (fun r => r.setAttr uname "filled")) ++ tail) := by
        rw [List.append_assoc, ← htab]
        apply scanOrdered_map rank _ _ _ hs
        intro r
        split
        · rfl
        · rfl
      have hlast' : (done ++ page.map (fun r => r.setAttr uname "filled")).getLast? =
          some (last.setAttr uname "filled") := by
        obtain ⟨init, rfl⟩ := List.getLast?_eq_some_iff.mp hlast
        rw [List.map_append, ← List.append_assoc]
        simp
      have hoff' := filter_after_last rank _ tail _ hs' hlast'
      obtain ⟨log', hrun, hlog⟩ := ih (some last.key) rng'
        (done ++ page.map (fun r => r.setAttr uname "filled")) tail
        ((log ++ [Request.scan offset]) ++ out.map (updateRequest uname)) hs' hoff'
        (by simp only [List.length_append] at hf; omega)
      refine ⟨log', ?_, ?_⟩
      · rw [htab]
        simp only [hbig, if_true, hlast, Option.map_some']
        simp only [tableClient] at hrun
        rw [← List.append_assoc, hrun]
        simp [List.map_append, List.append_assoc]
      · refine hlog.trans ?_
        rw [updatesOf_append_map, updatesOf_append_scan, List.map_append, List.append_assoc]
        exact List.Perm.append_left _ (List.Perm.append_right _ (hperm.map _))
    · have htake : todo.take limit = todo := List.take_of_length_le (by omega)
      rw [htake] at hperm ⊢
      have htab := map_page rank done todo [] out (fun r => r.setAttr uname "filled")
        (by simpa using hs) hperm
      simp only [List.append_nil] at htab
      refine ⟨(log ++ [Request.scan offset]) ++ out.map (updateRequest uname), ?_, ?_⟩
      · rw [htab]
        simp [hbig]
      · rw [updatesOf_append_map, updatesOf_append_scan]
        exact List.Perm.append_left _ (hperm.map _)

/-- C7: on the table store (every call succeeds, no other writer), a pass
`UpdateAllItems(table, w)` returns `nil` after issuing exactly one point update
per row, keyed by the row's `(PK, SK)` and setting `w` to `"filled"`; the table
is then the old one with `w` set on every row: every row carries `w = "filled"`,
the keys are unchanged, and every other attribute keeps its value. -/
theorem C7_update_all (rank : Key → Nat) (limit : Nat) (w : String) (table : List Item)
    (fuel : Nat) (rng : Rng) (log : List (Request Key))
    (hl : 0 < limit) (hw : w ≠ "PK" ∧ w ≠ "SK") (hs : ScanOrdered rank table)
    (hf : table.length < fuel) :
    ∃ log', UpdateAllItems (tableClient rank limit) w fuel rng ⟨table, log⟩ =
        (Outcome.returned none, ⟨table.map (fun r => r.setAttr w "filled"), log'⟩) ∧
      (updatesOf log').Perm (updatesOf log ++ table.map (fun r => (r.key, w, "filled"))) ∧
      (table.map (fun r => r.setAttr w "filled")).map Item.key = table.map Item.key ∧
      (∀ r ∈ table.map (fun r => r.setAttr w "filled"), r.getAttr w = some "filled") ∧
      (∀ (r : Item) (name : String), name ≠ w →
        (r.setAttr w "filled").getAttr name = r.getAttr name) := by
  obtain ⟨log', hrun, hlog⟩ := updateLoop_table rank limit w hl (by tauto) fuel none rng []
    table log (by simpa using hs) (by simp) hf
  refine ⟨log', by simpa [UpdateAllItems] using hrun, hlog, ?_, ?_, ?_⟩
  · rw [List.map_map]
    apply List.map_congr_left
    intro r _
    rfl
  · intro r hr
    obtain ⟨r0, _, rfl⟩ := List.mem_map.mp hr
    exact getAttr_setAttr_same _ _ _
  · intro r name hne
    exact getAttr_setAttr_other _ _ _ _ hne

/-- Witness for C7: writer `w` on the table of the seeded row and the example
row, pages of one row. -/
theorem C7_update_all_witness :
    ∃ log', UpdateAllItems (tableClient sampleRank 1) "w" 3 (fun _ => 0)
        ⟨[seededItem, exampleItem], []⟩ =
        (Outcome.returned none,
          ⟨[seededItem, exampleItem].map (fun r => r.setAttr "w" "filled"), log'⟩) ∧
      (updatesOf log').Perm (updatesOf ([] : List (Request Key)) ++
        [seededItem, exampleItem].map (fun r => (r.key, "w", "filled"))) := by
  obtain ⟨log', h1, h2, _⟩ := C7_update_all sampleRank 1 "w" [seededItem, exampleItem] 3
    (fun _ => 0) [] (by decide) (by decide) (by decide) (by decide)
  exact ⟨log', h1, h2⟩

/-! ## The concurrent writer pool -/

/-- C3 (as stated, refuted): one worker `w` run to completion on the table holding
one seeded row leaves that row with two non-key attributes, `RandomContent` and
`w`, not one; the same table results from `UpdateAllItems` run alone. -/
theorem C3_counterexample :
    (updateAllItemsConcurrently (tableClient sampleRank 1) ["w"] (fun _ _ => 0) [0, 0, 0]
      ⟨[seededItem], []⟩).completed = true ∧
    (updateAllItemsConcurrently (tableClient sampleRank 1) ["w"] (fun _ _ => 0) [0, 0, 0]
      ⟨[seededItem], []⟩).store.table =
      [⟨"PK-0", "A", [("RandomContent", "qwertyuiop"), ("w", "filled")]⟩] ∧
    (UpdateAllItems (tableClient sampleRank 1) "w" 2 (fun _ => 0) ⟨[seededItem], []⟩).2.table =
      [⟨"PK-0", "A", [("RandomContent", "qwertyuiop"), ("w", "filled")]⟩] ∧
    (⟨"PK-0", "A", [("RandomContent", "qwertyuiop"), ("w", "filled")]⟩ : Item).nonKeyCount = 2 ∧
    ["w"].length = 1 := by
  refine ⟨by decide, by decide, by decide, rfl, rfl⟩

theorem touch_nil (u : String) (table : List Item) : touch u [] table = table := by
  simp [touch]

theorem touch_keys (u : String) (K : List Key) (table : List Item) :
    (touch u K table).map Item.key = table.map Item.key := by
  unfold touch
  rw [List.map_map]
  apply List.map_congr_left
  intro r _
  simp only [Function.comp]
  split <;> rfl

theorem touch_mem (u : String) (K : List Key) (table : List Item) (r' : Item)
    (h : r' ∈ touch u K table) :
    ∃ r ∈ table, r'.key = r.key ∧ (r' = r ∨ r' = r.setAttr u "filled") ∧
      (r.key ∈ K → r' = r.setAttr u "filled") := by
  obtain ⟨r, hr, rfl⟩ := List.mem_map.mp h
  refine ⟨r, hr, ?_, ?_, ?_⟩
  · split <;> rfl
  · by_cases hk : r.key ∈ K
    · right; simp [hk]
    · left; simp [hk]
  · intro hk
    simp [hk]

theorem filled_setAttr (r : Item) (u v : String) (h : r.getAttr v = some "filled") :
    (r.setAttr u "filled").getAttr v = some "filled" := by
  by_cases hv : v = u
  · subst hv
    exact getAttr_setAttr_same _ _ _
  · rw [← h]
    exact getAttr_setAttr_other _ _ _ _ hv

theorem remaining_congr (rank : Key → Nat) (ph : Phase Key) (r r' : Item)
    (h : r'.key = r.key) : Remaining rank ph r' ↔ Remaining rank ph r := by
  unfold Remaining
  split <;> simp [h]

theorem workerInv_touch (rank : Key → Nat) (v : Worker Key) (u : String) (K : List Key)
    (table : List Item) (h : WorkerInv rank v table) : WorkerInv rank v (touch u K table) := by
  refine ⟨?_, ?_⟩
  · intro r' hr' hrem
    obtain ⟨r, hr, hkey, hor, _⟩ := touch_mem u K table r' hr'
    have hf := h.1 r hr (fun hh => hrem ((remaining_congr rank v.phase r r' hkey).mpr hh))
    rcases hor with rfl | rfl
    · exact hf
    · exact filled_setAttr _ _ _ hf
  · intro pending next hph i hi
    obtain ⟨r, hr, hk⟩ := h.2 pending next hph i hi
    have : i.key ∈ (touch u K table).map Item.key := by
      rw [touch_keys]
      exact List.mem_map.mpr ⟨r, hr, hk⟩
    obtain ⟨r', hr', hk'⟩ := List.mem_map.mp this
    exact ⟨r', hr', hk'⟩

theorem scanOrdered_touch (rank : Key → Nat) (u : String) (K : List Key) (table : List Item)
    (h : ScanOrdered rank table) : ScanOrdered rank (touch u K table) := by
  apply scanOrdered_map rank _ _ _ h
  intro r
  split <;> rfl

theorem setAttr_names (attrs : List (String × String)) (name value : String) :
    (setAttr attrs name value).map Prod.fst =
      if name ∈ attrs.map Prod.fst then attrs.map Prod.fst else attrs.map Prod.fst ++ [name] := by
  induction attrs with
  | nil => simp [setAttr]
  | cons a rest ih =>
    obtain ⟨n, v⟩ := a
    by_cases h : n = name
    · simp [setAttr, h]
    · have h' : ¬ name = n := fun hh => h hh.symm
      simp only [setAttr, h, if_false, List.map_cons, ih, List.mem_cons, h', false_or]
      split <;> simp

theorem agrees_touch (unames : List String) (u : String) (hu : u ∈ unames) (K : List Key)
    (table current : List Item) (h : List.Forall₂ (Agrees unames) table current) :
    List.Forall₂ (Agrees unames) table (touch u K current) := by
  unfold touch
  rw [List.forall₂_map_right_iff]
  refine h.imp ?_
  intro r r' hag
  by_cases hk : r'.key ∈ K
  · simp only [hk, if_true]
    obtain ⟨hkey, hother, extra, hnames, hnd, hex⟩ := hag
    refine ⟨hkey, ?_, ?_⟩
    · intro name hname
      have hne : name ≠ u := fun hh => hname (hh ▸ hu)
      rw [← hother name hname]
      exact getAttr_setAttr_other _ _ _ _ hne
    · have hsn := setAttr_names r'.attrs u "filled"
      by_cases hmem : u ∈ r'.attrs.map Prod.fst
      · rw [if_pos hmem] at hsn
        refine ⟨extra, ?_, hnd, hex⟩
        simp only [Item.setAttr, hsn, hnames]
      · rw [if_neg hmem] at hsn
        refine ⟨extra ++ [u], ?_, ?_, ?_⟩
        · simp only [Item.setAttr, hsn, hnames, List.append_assoc]
        · rw [List.nodup_append]
          refine ⟨hnd, List.nodup_singleton u, ?_⟩
          intro a ha hau
          rw [List.mem_singleton] at hau
          subst hau
          exact hmem (hnames ▸ List.mem_append_right _ ha)
        · intro n hn
          rcases List.mem_append.mp hn with hn | hn
          · exact hex n hn
          · rw [List.mem_singleton] at hn
            subst hn
            exact ⟨hu, fun hh => hmem (hnames ▸ List.mem_append_left _ hh)⟩
  · simpa [hk] using hag

theorem remaining_updating_of_mem (rank : Key → Nat) (pending : List Item) (next : Option Key)
    (r : Item) (h : r.key ∈ pending.map Item.key) :
    Remaining rank (Phase.updating pending next) r := by
  cases next with
  | none => exact h
  | some k => exact Or.inl h

theorem tableUpdate_eq_touch (rank : Key → Nat) (key : Key) (u : String) (table : List Item)
    (h : ∃ r ∈ table, r.key = key) :
    tableUpdate rank key u "filled" table = touch u [key] table := by
  have hany := (any_key_iff table key).mpr h
  simp only [tableUpdate, hany, if_true, touch, List.mem_singleton]

theorem scan_remaining (rank : Key → Nat) (limit : Nat) (hl : 0 < limit) (offset : Option Key)
    (table : List Item) (hs : ScanOrdered rank table) (out : List Item)
    (hperm : out.Perm (tableScan rank limit offset table).Items) (r : Item) (hr : r ∈ table)
    (hrem : Remaining rank (Phase.scanning offset) r) :
    Remaining rank (Phase.updating out (tableScan rank limit offset table).LastEvaluatedKey) r := by
  obtain ⟨rest, hrest, hsub, hmem⟩ : ∃ rest,
      (match offset with
        | none => table
        | some k => table.filter (fun r => decide (rank k < rank r.key))) = rest ∧
      rest.Sublist table ∧ r ∈ rest := by
    cases offset with
    | none => exact ⟨table, rfl, List.Sublist.refl _, hr⟩
    | some k =>
      refine ⟨_, rfl, List.filter_sublist _, ?_⟩
      rw [List.mem_filter]
      exact ⟨hr, by simpa [Remaining] using hrem⟩
  rw [tableScan_of_rest rank limit offset table rest hrest] at hperm ⊢
  simp only at hperm ⊢
  have hsorted : ScanOrdered rank (rest.take limit ++ rest.drop limit) := by
    rw [List.take_append_drop]
    exact List.Pairwise.sublist hsub hs
  have hsplit : r ∈ rest.take limit ++ rest.drop limit := by
    rw [List.take_append_drop]; exact hmem
  rcases List.mem_append.mp hsplit with ht | hd
  · apply remaining_updating_of_mem
    exact List.mem_map.mpr ⟨r, hperm.mem_iff.mpr ht, rfl⟩
  · have hlt : limit < rest.length := by
      by_contra hcon
      have : rest.drop limit = [] := List.drop_eq_nil_of_le (by omega)
      rw [this] at hd
      cases hd
    have hne : rest.take limit ≠ [] := by
      intro h0
      have := congrArg List.length h0
      rw [List.length_take, List.length_nil] at this
      omega
    have hlast : (rest.take limit).getLast? = some ((rest.take limit).getLast hne) :=
      List.getLast?_eq_getLast _ hne
    simp only [hlt, if_true, hlast, Option.map_some']
    exact Or.inr ((List.pairwise_append.mp hsorted).2.2 _ (List.getLast_mem hne) r hd)

theorem stepWorker_table (rank : Key → Nat) (limit : Nat) (hl : 0 < limit) (w : Worker Key)
    (table : List Item) (log : List (Request Key))
    (hu : ¬ (w.uname = "PK" ∨ w.uname = "SK")) (hs : ScanOrdered rank table)
    (hinv : WorkerInv rank w table) :
    ∃ K, (stepWorker (tableClient rank limit) w ⟨table, log⟩).2.table = touch w.uname K table ∧
      (stepWorker (tableClient rank limit) w ⟨table, log⟩).1.uname = w.uname ∧
      WorkerInv rank (stepWorker (tableClient rank limit) w ⟨table, log⟩).1
        (touch w.uname K table) := by
  obtain ⟨u, rng, ph⟩ := w
  simp only at hu
  cases ph with
  | scanning offset =>
    obtain ⟨out, h1, hperm, _⟩ := ShuffleArray_perm (tableScan rank limit offset table).Items rng
    rcases hsh : ShuffleArray (tableScan rank limit offset table).Items rng with ⟨o, rng'⟩
    rw [hsh] at h1
    simp only at h1
    subst h1
    refine ⟨[], ?_, ?_, ?_⟩
    · simp only [stepWorker, tableClient, hsh, touch_nil]
    · simp only [stepWorker, tableClient, hsh]
    · simp only [stepWorker, tableClient, hsh, touch_nil]
      refine ⟨?_, ?_⟩
      · intro r hr hrem
        apply hinv.1 r hr
        intro hold
        exact hrem (scan_remaining rank limit hl offset table hs out hperm r hr hold)
      · intro pending next hph i hi
        simp only [Phase.updating.injEq] at hph
        obtain ⟨rfl, _⟩ := hph
        have hi' := hperm.mem_iff.mp hi
        have : i ∈ table := by
          unfold tableScan at hi'
          simp only at hi'
          have h2 := List.mem_of_mem_take hi'
          cases offset with
          | none => exact h2
          | some k => exact (List.mem_filter.mp h2).1
        exact ⟨i, this, rfl⟩
  | updating pending next =>
    cases pending with
    | nil =>
      cases next with
      | none =>
        refine ⟨[], ?_, ?_, ?_⟩
        · simp only [stepWorker, touch_nil]
        · simp only [stepWorker]
        · simp only [stepWorker, touch_nil]
          refine ⟨?_, ?_⟩
          · intro r hr _
            apply hinv.1 r hr
            simp [Remaining]
          · intro pending next hph
            simp at hph
      | some k =>
        refine ⟨[], ?_, ?_, ?_⟩
        · simp only [stepWorker, touch_nil]
        · simp only [stepWorker]
        · simp only [stepWorker, touch_nil]
          refine ⟨?_, ?_⟩
          · intro r hr hrem
            apply hinv.1 r hr
            simpa [Remaining] using hrem
          · intro pending next hph
            simp at hph
    | cons item rest =>
      have hpres : ∃ r ∈ table, r.key = (⟨item.PK, item.SK⟩ : Key) :=
        hinv.2 (item :: rest) next rfl item (List.mem_cons_self _ _)
      have htab := tableUpdate_eq_touch rank ⟨item.PK, item.SK⟩ u table hpres
      refine ⟨[⟨item.PK, item.SK⟩], ?_, ?_, ?_⟩
      · simp only [stepWorker, tableClient, hu, if_false, htab]
      · simp only [stepWorker, tableClient, hu, if_false]
      · simp only [stepWorker, tableClient, hu, if_false]
        refine ⟨?_, ?_⟩
        · intro r' hr' hrem
          obtain ⟨r, hr, hkey, hor, hin⟩ := touch_mem u [⟨item.PK, item.SK⟩] table r' hr'
          by_cases hk : r.key = (⟨item.PK, item.SK⟩ : Key)
          · rw [hin (List.mem_singleton.mpr hk)]
            exact getAttr_setAttr_same _ _ _
          · have hold : ¬ Remaining rank (Phase.updating (item :: rest) next) r := by
              intro hh
              apply hrem
              rw [remaining_congr rank _ r r' hkey]
              cases next with
              | none =>
                simp only [Remaining, List.map_cons, List.mem_cons] at hh ⊢
                rcases hh with hh | hh
                · exact absurd hh hk
                · exact hh
              | some k =>
                simp only [Remaining, List.map_cons, List.mem_cons] at hh ⊢
                rcases hh with (hh | hh) | hh
                · exact absurd hh hk
                · exact Or.inl hh
                · exact Or.inr hh
            have hf := hinv.1 r hr hold
            rcases hor with rfl | rfl
            · exact hf
            · exact filled_setAttr _ _ _ hf
        · intro pending nxt hph i hi
          simp only [Phase.updating.injEq] at hph
          obtain ⟨rfl, _⟩ := hph
          obtain ⟨r, hr, hk⟩ := hinv.2 (item :: rest) next rfl i (List.mem_cons_of_mem _ hi)
          have : i.key ∈ (touch u [⟨item.PK, item.SK⟩] table).map Item.key := by
            rw [touch_keys]
            exact List.mem_map.mpr ⟨r, hr, hk⟩
          obtain ⟨r', hr', hk'⟩ := List.mem_map.mp this
          exact ⟨r', hr', hk'⟩
  | finished out =>
    refine ⟨[], ?_, ?_, ?_⟩
    · simp only [stepWorker, touch_nil]
    · simp only [stepWorker]
    · simpa only [stepWorker, touch_nil] using hinv

theorem workerInv_touched (rank : Key → Nat) (unames : List String) (v : Worker Key)
    (table table' : List Item) (ht : Touched unames table table')
    (h : WorkerInv rank v table) : WorkerInv rank v table' := by
  rcases ht with rfl | ⟨u, _, K, rfl⟩
  · exact h
  · exact workerInv_touch rank v u K table h

theorem scanOrdered_touched (rank : Key → Nat) (unames : List String)
    (table table' : List Item) (ht : Touched unames table table')
    (h : ScanOrdered rank table) : ScanOrdered rank table' := by
  rcases ht with rfl | ⟨u, _, K, rfl⟩
  · exact h
  · exact scanOrdered_touch rank u K table h

theorem agrees_touched (unames : List String) (original table table' : List Item)
    (ht : Touched unames table table') (h : List.Forall₂ (Agrees unames) original table) :
    List.Forall₂ (Agrees unames) original table' := by
  rcases ht with rfl | ⟨u, hu, K, rfl⟩
  · exact h
  · exact agrees_touch unames u hu K original table h

theorem stepAt_table (rank : Key → Nat) (limit : Nat) (hl : 0 < limit) (unames : List String)
    (i : Nat) (workers : List (Worker Key)) (table : List Item) (log : List (Request Key))
    (hs : ScanOrdered rank table)
    (hw : ∀ w ∈ workers, w.uname ∈ unames ∧ ¬ (w.uname = "PK" ∨ w.uname = "SK") ∧
      WorkerInv rank w table) :
    Touched unames table (stepAt (tableClient rank limit) i workers ⟨table, log⟩).2.table ∧
    (stepAt (tableClient rank limit) i workers ⟨table, log⟩).1.map Worker.uname =
      workers.map Worker.uname ∧
    ∀ w' ∈ (stepAt (tableClient rank limit) i workers ⟨table, log⟩).1,
      w'.uname ∈ unames ∧ ¬ (w'.uname = "PK" ∨ w'.uname = "SK") ∧
      WorkerInv rank w' (stepAt (tableClient rank limit) i workers ⟨table, log⟩).2.table := by
  induction workers generalizing i with
  | nil =>
    refine ⟨Or.inl ?_, ?_, ?_⟩
    · cases i <;> rfl
    · cases i <;> rfl
    · intro w' hw'
      cases i <;> simp [stepAt] at hw'
  | cons w ws ih =>
    have hhead := hw w (List.mem_cons_self _ _)
    have htail : ∀ v ∈ ws, v.uname ∈ unames ∧ ¬ (v.uname = "PK" ∨ v.uname = "SK") ∧
        WorkerInv rank v table := fun v hv => hw v (List.mem_cons_of_mem _ hv)
    cases i with
    | zero =>
      obtain ⟨K, htab, hname, hinv⟩ :=
        stepWorker_table rank limit hl w table log hhead.2.1 hs hhead.2.2
      have ht : Touched unames table
          (stepWorker (tableClient rank limit) w ⟨table, log⟩).2.table :=
        Or.inr ⟨w.uname, hhead.1, K, htab⟩
      refine ⟨ht, ?_, ?_⟩
      · simp only [stepAt, List.map_cons, hname]
      · intro w' hw'
        simp only [stepAt, List.mem_cons] at hw'
        rcases hw' with rfl | hw'
        · refine ⟨hname ▸ hhead.1, hname ▸ hhead.2.1, ?_⟩
          simp only [stepAt]
          rw [htab]
          exact hinv
        · obtain ⟨h1, h2, h3⟩ := htail w' hw'
          exact ⟨h1, h2, workerInv_touched rank unames w' table _ ht h3⟩
    | succ i =>
      obtain ⟨ht, hnames, hall⟩ := ih i htail
      refine ⟨ht, ?_, ?_⟩
      · simp only [stepAt, List.map_cons, hnames]
      · intro w' hw'
        simp only [stepAt, List.mem_cons] at hw'
        rcases hw' with rfl | hw'
        · exact ⟨hhead.1, hhead.2.1, workerInv_touched rank unames _ table _ ht hhead.2.2⟩
        · exact hall w' hw'

theorem runSchedule_table (rank : Key → Nat) (limit : Nat) (hl : 0 < limit)
    (unames : List String) (original : List Item) (schedule : List Nat)
    (p : Pool Store Key) (hs : ScanOrdered rank p.store.table)
    (hag : List.Forall₂ (Agrees unames) original p.store.table)
    (hw : ∀ w ∈ p.workers, w.uname ∈ unames ∧ ¬ (w.uname = "PK" ∨ w.uname = "SK") ∧
      WorkerInv rank w p.store.table) :
    List.Forall₂ (Agrees unames) original
      (runSchedule (tableClient rank limit) schedule p).store.table ∧
    (runSchedule (tableClient rank limit) schedule p).workers.map Worker.uname =
      p.workers.map Worker.uname ∧
    ∀ w ∈ (runSchedule (tableClient rank limit) schedule p).workers,
      WorkerInv rank w (runSchedule (tableClient rank limit) schedule p).store.table := by
  induction schedule generalizing p with
  | nil => exact ⟨hag, rfl, fun w hw' => (hw w hw').2.2⟩
  | cons i rest ih =>
    obtain ⟨⟨table, log⟩, workers⟩ := p
    obtain ⟨ht, hnames, hall⟩ := stepAt_table rank limit hl unames i workers table log hs hw
    have := ih ⟨(stepAt (tableClient rank limit) i workers ⟨table, log⟩).2,
        (stepAt (tableClient rank limit) i workers ⟨table, log⟩).1⟩
      (scanOrdered_touched rank unames table _ ht hs)
      (agrees_touched unames original table _ ht hag) hall
    simp only [runSchedule]
    exact ⟨this.1, this.2.1.trans hnames, this.2.2⟩

theorem spawnWorkers_spec (rngs : Nat → Rng) (i : Nat) (unames : List String) :
    (spawnWorkers rngs i unames : List (Worker Key)).map Worker.uname = unames ∧
    ∀ w ∈ (spawnWorkers rngs i unames : List (Worker Key)), w.phase = Phase.scanning none := by
  induction unames generalizing i with
  | nil => simp [spawnWorkers]
  | cons u rest ih =>
    obtain ⟨h1, h2⟩ := ih (i + 1)
    refine ⟨by simp [spawnWorkers, h1], ?_⟩
    intro w hw
    simp only [spawnWorkers, List.mem_cons] at hw
    rcases hw with rfl | hw
    · rfl
    · exact h2 w hw

theorem forall₂_and_right {α β : Type} (R : α → β → Prop) (P : β → Prop) (l1 : List α)
    (l2 : List β) (h : List.Forall₂ R l1 l2) (hp : ∀ b ∈ l2, P b) :
    List.Forall₂ (fun a b => R a b ∧ P b) l1 l2 := by
  induction h with
  | nil => exact List.Forall₂.nil
  | cons hab _ ih =>
    exact List.Forall₂.cons ⟨hab, hp _ (List.mem_cons_self _ _)⟩
      (ih (fun b hb => hp b (List.mem_cons_of_mem _ hb)))

theorem mem_names_of_getAttr (attrs : List (String × String)) (name value : String)
    (h : getAttr attrs name = some value) : name ∈ attrs.map Prod.fst := by
  induction attrs with
  | nil => simp [getAttr] at h
  | cons a rest ih =>
    obtain ⟨n, v⟩ := a
    by_cases hn : n = name
    · simp [hn]
    · simp only [getAttr, hn, if_false] at h
      simp only [List.map_cons, List.mem_cons]
      exact Or.inr (ih h)

theorem count_of_agrees (unames : List String) (r r' : Item) (hag : Agrees unames r r')
    (hfilled : ∀ u ∈ unames, r'.getAttr u = some "filled") (hnd : unames.Nodup)
    (hnew : ∀ u ∈ unames, u ∉ r.attrs.map Prod.fst) :
    r'.nonKeyCount = r.nonKeyCount + unames.length := by
  obtain ⟨_, _, extra, hnames, hend, hex⟩ := hag
  have hsub1 : extra ⊆ unames := fun n hn => (hex n hn).1
  have hsub2 : unames ⊆ extra := by
    intro u hu
    have hm := mem_names_of_getAttr r'.attrs u "filled" (hfilled u hu)
    rw [hnames] at hm
    rcases List.mem_append.mp hm with hm | hm
    · exact absurd hm (hnew u hu)
    · exact hm
  have hlen : extra.length = unames.length :=
    le_antisymm (List.subperm_of_subset hend hsub1).length_le
      (List.subperm_of_subset hnd hsub2).length_le
  have := congrArg List.length hnames
  simp only [List.length_map, List.length_append] at this
  simp only [Item.nonKeyCount, this, hlen]

/-- C3 (amended): for every table, every list of writer identities (none of them
`PK` or `SK`) and every interleaving of the workers' store calls, once all
workers have completed every row has its key unchanged, carries for each worker
identity an attribute of that name valued `"filled"`, and keeps the value of
every attribute that is not a worker identity; when the `k` identities are
distinct and none of them was an attribute of the row, the row has exactly `k`
non-key attributes more than before. -/
theorem C3_pool_fills_every_row (rank : Key → Nat) (limit : Nat) (table : List Item)
    (unames : List String) (rngs : Nat → Rng) (schedule : List Nat) (log : List (Request Key))
    (hl : 0 < limit) (hs : ScanOrdered rank table)
    (hu : ∀ u ∈ unames, u ≠ "PK" ∧ u ≠ "SK")
    (hdone : (updateAllItemsConcurrently (tableClient rank limit) unames rngs schedule
      ⟨table, log⟩).completed = true) :
    List.Forall₂
      (fun r r' => r'.key = r.key ∧
        (∀ u ∈ unames, r'.getAttr u = some "filled") ∧
        (∀ name, name ∉ unames → r'.getAttr name = r.getAttr name) ∧
        (unames.Nodup → (∀ u ∈ unames, u ∉ r.attrs.map Prod.fst) →
          r'.nonKeyCount = r.nonKeyCount + unames.length))
      table
      (updateAllItemsConcurrently (tableClient rank limit) unames rngs schedule
        ⟨table, log⟩).store.table := by
  obtain ⟨hnames0, hphase0⟩ := spawnWorkers_spec rngs 0 unames
  have hrefl : List.Forall₂ (Agrees unames) table table :=
    List.forall₂_same.mpr (fun r _ =>
      ⟨rfl, fun _ _ => rfl, [], by simp, List.nodup_nil, fun n hn => by cases hn⟩)
  have hw0 : ∀ w ∈ (spawnWorkers rngs 0 unames : List (Worker Key)),
      w.uname ∈ unames ∧ ¬ (w.uname = "PK" ∨ w.uname = "SK") ∧ WorkerInv rank w table := by
    intro w hw
    have hmem : w.uname ∈ unames := by
      rw [← hnames0]
      exact List.mem_map.mpr ⟨w, hw, rfl⟩
    refine ⟨hmem, ?_, ?_, ?_⟩
    · have := hu w.uname hmem
      tauto
    · intro r _ hrem
      rw [hphase0 w hw] at hrem
      exact absurd trivial hrem
    · intro pending next hph
      rw [hphase0 w hw] at hph
      cases hph
  obtain ⟨hag, hnames, hinv⟩ := runSchedule_table rank limit hl unames table schedule
    ⟨⟨table, log⟩, spawnWorkers rngs 0 unames⟩ hs hrefl hw0
  unfold updateAllItemsConcurrently at hdone ⊢
  have hfilled : ∀ r' ∈ (runSchedule (tableClient rank limit) schedule
      ⟨⟨table, log⟩, spawnWorkers rngs 0 unames⟩).store.table,
      ∀ u ∈ unames, r'.getAttr u = some "filled" := by
    intro r' hr' u hu'
    have hmem : u ∈ (runSchedule (tableClient rank limit) schedule
        ⟨⟨table, log⟩, spawnWorkers rngs 0 unames⟩).workers.map Worker.uname := by
      rw [hnames, hnames0]
      exact hu'
    obtain ⟨w, hw, rfl⟩ := List.mem_map.mp hmem
    have hfin : w.phase = Phase.finished (Outcome.returned none) := by
      simp only [Pool.completed, List.all_eq_true, decide_eq_true_eq] at hdone
      exact hdone w hw
    apply (hinv w hw).1 r' hr'
    rw [hfin]
    simp [Remaining]
  refine (forall₂_and_right _ _ _ _ hag hfilled).imp ?_
  intro r r' hboth
  obtain ⟨hagr, hf⟩ := hboth
  exact ⟨hagr.1, hf, hagr.2.1, fun hnd hnew => count_of_agrees unames r r' hagr hf hnd hnew⟩

/-- Witness for C3: workers `a` and `b`, stepped in turn, on the table of the
seeded row and the example row served one row per page. -/
theorem C3_pool_fills_every_row_witness :
    (updateAllItemsConcurrently (tableClient sampleRank 1) ["a", "b"] (fun _ _ => 0)
      [0, 1, 0, 1, 0, 1, 0, 1, 0, 1, 0, 1] ⟨[seededItem, exampleItem], []⟩).completed = true ∧
    List.Forall₂
      (fun r r' => r'.key = r.key ∧
        (∀ u ∈ ["a", "b"], r'.getAttr u = some "filled") ∧
        (∀ name, name ∉ ["a", "b"] → r'.getAttr name = r.getAttr name) ∧
        (["a", "b"].Nodup → (∀ u ∈ ["a", "b"], u ∉ r.attrs.map Prod.fst) →
          r'.nonKeyCount = r.nonKeyCount + ["a", "b"].length))
      [seededItem, exampleItem]
      (updateAllItemsConcurrently (tableClient sampleRank 1) ["a", "b"] (fun _ _ => 0)
        [0, 1, 0, 1, 0, 1, 0, 1, 0, 1, 0, 1] ⟨[seededItem, exampleItem], []⟩).store.table :=
  ⟨by decide, C3_pool_fills_every_row sampleRank 1 [seededItem, exampleItem] ["a", "b"]
    (fun _ _ => 0) [0, 1, 0, 1, 0, 1, 0, 1, 0, 1, 0, 1] [] (by decide) (by decide) (by decide)
    (by decide)⟩

/-! ## The steps of a worker against `UpdateAllItems` -/

theorem runWorker_add {σ τ : Type} (d : Client σ τ) (n m : Nat) (w : Worker τ) (s : σ) :
    runWorker d (n + m) w s = runWorker d m (runWorker d n w s).1 (runWorker d n w s).2 := by
  induction n generalizing w s with
  | zero => simp [runWorker]
  | succ n ih =>
    rw [Nat.succ_add, runWorker, ih]
    rfl

theorem runWorker_updateItems {σ τ : Type} (d : Client σ τ) (u : String) (rng : Rng)
    (items : List Item) (next : Option τ) (s : σ) :
    ∃ n, runWorker d n ⟨u, rng, Phase.updating items next⟩ s =
      (⟨u, rng, match (updateItems d u items s).1 with
        | some out => Phase.finished out
        | none => Phase.updating [] next⟩, (updateItems d u items s).2) := by
  induction items generalizing s with
  | nil => exact ⟨0, rfl⟩
  | cons item rest ih =>
    rcases hupd : d.UpdateItem ⟨item.PK, item.SK⟩ u "filled" s with ⟨e, s'⟩
    cases e with
    | some err =>
      refine ⟨1, ?_⟩
      simp [runWorker, stepWorker, updateItems, hupd]
    | none =>
      obtain ⟨n, hn⟩ := ih s'
      refine ⟨n + 1, ?_⟩
      simp only [runWorker, stepWorker, updateItems, hupd]
      exact hn

/-- The steps of a worker carry out `UpdateAllItems`: whenever the loop of
`UpdateAllItems` ends within its fuel, a worker started at the same point and
stepped alone reaches `finished` with the same outcome and the same store. -/
theorem runWorker_updateLoop {σ τ : Type} (d : Client σ τ) (u : String) (fuel : Nat)
    (offset : Option τ) (rng : Rng) (s : σ)
    (h : (updateLoop d u fuel offset rng s).1 ≠ Outcome.unfinished) :
    ∃ n rng', runWorker d n ⟨u, rng, Phase.scanning offset⟩ s =
      (⟨u, rng', Phase.finished (updateLoop d u fuel offset rng s).1⟩,
        (updateLoop d u fuel offset rng s).2) := by
  induction fuel generalizing offset rng s with
  | zero => exact absurd rfl h
  | succ fuel ih =>
    rcases hscan : d.Scan offset s with ⟨res, s1⟩
    cases res with
    | error err =>
      refine ⟨1, rng, ?_⟩
      simp [runWorker, stepWorker, updateLoop, hscan]
    | ok result =>
      rcases hsh : ShuffleArray result.Items rng with ⟨o, rng1⟩
      cases o with
      | none =>
        refine ⟨1, rng1, ?_⟩
        simp [runWorker, stepWorker, updateLoop, hscan, hsh]
      | some items =>
        obtain ⟨n1, hn1⟩ := runWorker_updateItems d u rng1 items result.LastEvaluatedKey s1
        have hfirst : runWorker d 1 ⟨u, rng, Phase.scanning offset⟩ s =
            (⟨u, rng1, Phase.updating items result.LastEvaluatedKey⟩, s1) := by
          simp [runWorker, stepWorker, hscan, hsh]
        rcases hupd : updateItems d u items s1 with ⟨res, s2⟩
        rw [hupd] at hn1
        simp only at hn1
        cases res with
        | some out =>
          refine ⟨1 + n1, rng1, ?_⟩
          rw [runWorker_add, hfirst]
          simp only [hn1, updateLoop, hscan, hsh, hupd]
        | none =>
          rcases hnext : result.LastEvaluatedKey with _ | k
          · rw [hnext] at hn1 hfirst
            have hlast : runWorker d 1 ⟨u, rng1, Phase.updating [] none⟩ s2 =
                (⟨u, rng1, Phase.finished (Outcome.returned none)⟩, s2) := by
              simp [runWorker, stepWorker]
            refine ⟨1 + n1 + 1, rng1, ?_⟩
            rw [runWorker_add, runWorker_add, hfirst]
            simp only [hn1, hlast, updateLoop, hscan, hsh, hupd, hnext]
          · rw [hnext] at hn1 hfirst
            have hloop : updateLoop d u (fuel + 1) offset rng s =
                updateLoop d u fuel (some k) rng1 s2 := by
              simp only [updateLoop, hscan, hsh, hupd, hnext]
            rw [hloop] at h ⊢
            obtain ⟨n2, rng2, hn2⟩ := ih (some k) rng1 s2 h
            have hmid : runWorker d 1 ⟨u, rng1, Phase.updating [] (some k)⟩ s2 =
                (⟨u, rng1, Phase.scanning (some k)⟩, s2) := by
              simp [runWorker, stepWorker]
            refine ⟨1 + n1 + 1 + n2, rng2, ?_⟩
            rw [runWorker_add, runWorker_add, runWorker_add, hfirst]
            simp only [hn1, hmid]
            exact hn2

/-! ## Every fair interleaving completes -/

theorem afterCount_touch (rank : Key → Nat) (offset : Option Key) (u : String) (K : List Key)
    (table : List Item) :
    afterCount rank offset (touch u K table) = afterCount rank offset table := by
  cases offset with
  | none => simp [afterCount, touch]
  | some k =>
    simp only [afterCount, touch, List.filter_map, List.length_map]
    congr 1
    apply List.filter_congr
    intro r _
    simp only [Function.comp]
    split <;> rfl

theorem workLeft_touched (rank : Key → Nat) (unames : List String) (ph : Phase Key)
    (table table' : List Item) (ht : Touched unames table table') :
    workLeft rank ph table' = workLeft rank ph table := by
  rcases ht with rfl | ⟨u, _, K, rfl⟩
  · rfl
  · unfold workLeft
    split <;> simp only [afterCount_touch]

theorem afterCount_after_page (rank : Key → Nat) (limit : Nat) (offset : Option Key)
    (table rest : List Item) (last : Item) (hs : ScanOrdered rank table)
    (hrest : (match offset with
          | none => table
          | some k => table.filter (fun r => decide (rank k < rank r.key))) = rest)
    (hlast : (rest.take limit).getLast? = some last) :
    afterCount rank (some last.key) table = rest.length - limit := by
  have hsub : rest.Sublist table := by
    cases offset with
    | none => simp only at hrest; rw [hrest]
    | some k => simp only at hrest; rw [← hrest]; exact List.filter_sublist _
  have hsorted : ScanOrdered rank (rest.take limit ++ rest.drop limit) := by
    rw [List.take_append_drop]
    exact List.Pairwise.sublist hsub hs
  have hfr := filter_after_last rank (rest.take limit) (rest.drop limit) last hsorted hlast
  rw [List.take_append_drop] at hfr
  have hall : table.filter (fun r => decide (rank last.key < rank r.key)) =
      rest.filter (fun r => decide (rank last.key < rank r.key)) := by
    cases offset with
    | none => simp only at hrest; rw [hrest]
    | some k =>
      simp only at hrest
      rw [← hrest, List.filter_filter]
      apply List.filter_congr
      intro r _
      have hlm : last ∈ table.filter (fun r => decide (rank k < rank r.key)) := by
        rw [hrest]
        exact List.mem_of_mem_take (List.mem_of_getLast?_eq_some hlast)
      have hk : rank k < rank last.key := by
        simpa using (List.mem_filter.mp hlm).2
      by_cases h : rank last.key < rank r.key
      · have : rank k < rank r.key := lt_trans hk h
        simp [h, this]
      · simp [h]
  simp only [afterCount, hall, hfr, List.length_drop]

theorem stepWorker_progress (rank : Key → Nat) (limit : Nat) (hl : 0 < limit) (w : Worker Key)
    (table : List Item) (log : List (Request Key))
    (hu : ¬ (w.uname = "PK" ∨ w.uname = "SK")) (hs : ScanOrdered rank table)
    (hg : GoodPhase w.phase) :
    GoodPhase (stepWorker (tableClient rank limit) w ⟨table, log⟩).1.phase ∧
    workLeft rank (stepWorker (tableClient rank limit) w ⟨table, log⟩).1.phase table ≤
      workLeft rank w.phase table - 1 := by
  obtain ⟨u, rng, ph⟩ := w
  simp only at hu hg
  cases ph with
  | scanning offset =>
    obtain ⟨rest, hrest⟩ : ∃ rest, (match offset with
          | none => table
          | some k => table.filter (fun r => decide (rank k < rank r.key))) = rest := ⟨_, rfl⟩
    have hscan := tableScan_of_rest rank limit offset table rest hrest
    obtain ⟨out, h1, _, hlen⟩ := ShuffleArray_perm (rest.take limit) rng
    rcases hsh : ShuffleArray (rest.take limit) rng with ⟨o, rng'⟩
    rw [hsh] at h1
    simp only at h1
    subst h1
    have hcount : afterCount rank offset table = rest.length := by
      cases offset with
      | none => simp only at hrest; rw [← hrest]; rfl
      | some k => simp only at hrest; rw [← hrest]; rfl
    simp only [stepWorker, tableClient, hscan, hsh]
    refine ⟨fun out' hh => (by cases hh), ?_⟩
    by_cases hbig : limit < rest.length
    · have hne : rest.take limit ≠ [] := by
        intro h0
        have := congrArg List.length h0
        rw [List.length_take, List.length_nil] at this
        omega
      have hlast := List.getLast?_eq_getLast _ hne
      have hafter := afterCount_after_page rank limit offset table rest _ hs hrest hlast
      simp only [hbig, if_true, hlast, Option.map_some', workLeft, hafter, hcount, hlen,
        List.length_take]
      omega
    · simp only [hbig, if_false, workLeft, hcount, hlen, List.length_take]
      omega
  | updating pending next =>
    cases pending with
    | nil =>
      cases next with
      | none =>
        simp only [stepWorker, workLeft]
        exact ⟨fun out hh => (by cases hh; rfl), Nat.zero_le _⟩
      | some k =>
        simp only [stepWorker, workLeft, List.length_nil]
        exact ⟨fun out hh => (by cases hh), by omega⟩
    | cons item rest =>
      simp only [stepWorker, tableClient, hu, if_false]
      refine ⟨fun out hh => (by cases hh), ?_⟩
      cases next with
      | none => simp only [workLeft, List.length_cons]; omega
      | some k => simp only [workLeft, List.length_cons]; omega
  | finished out =>
    simp only [stepWorker, workLeft]
    exact ⟨hg, Nat.zero_le _⟩

theorem stepAt_progress (rank : Key → Nat) (limit : Nat) (hl : 0 < limit) (i : Nat)
    (workers : List (Worker Key)) (budgets : List Nat) (table : List Item)
    (log : List (Request Key)) (hs : ScanOrdered rank table)
    (hu : ∀ w ∈ workers, ¬ (w.uname = "PK" ∨ w.uname = "SK"))
    (h : List.Forall₂ (fun w b => GoodPhase w.phase ∧ workLeft rank w.phase table ≤ b)
      workers budgets) :
    List.Forall₂ (fun w b => GoodPhase w.phase ∧ workLeft rank w.phase table ≤ b)
      (stepAt (tableClient rank limit) i workers ⟨table, log⟩).1 (decAt i budgets) := by
  induction h generalizing i with
  | nil => cases i <;> exact List.Forall₂.nil
  | @cons w b ws bs hwb hrest ih =>
    cases i with
    | zero =>
      obtain ⟨hg, hle⟩ := stepWorker_progress rank limit hl w table log
        (hu w (List.mem_cons_self _ _)) hs hwb.1
      simp only [stepAt, decAt]
      exact List.Forall₂.cons ⟨hg, le_trans hle (Nat.sub_le_sub_right hwb.2 1)⟩ hrest
    | succ i =>
      simp only [stepAt, decAt]
      exact List.Forall₂.cons hwb (ih i (fun v hv => hu v (List.mem_cons_of_mem _ hv)))

theorem runSchedule_progress (rank : Key → Nat) (limit : Nat) (hl : 0 < limit)
    (unames : List String) (schedule : List Nat) (p : Pool Store Key) (budgets : List Nat)
    (hs : ScanOrdered rank p.store.table)
    (hw : ∀ w ∈ p.workers, w.uname ∈ unames ∧ ¬ (w.uname = "PK" ∨ w.uname = "SK") ∧
      WorkerInv rank w p.store.table)
    (h : List.Forall₂ (fun w b => GoodPhase w.phase ∧ workLeft rank w.phase p.store.table ≤ b)
      p.workers budgets) :
    List.Forall₂
      (fun w b => GoodPhase w.phase ∧
        workLeft rank w.phase (runSchedule (tableClient rank limit) schedule p).store.table ≤ b)
      (runSchedule (tableClient rank limit) schedule p).workers (consume schedule budgets) := by
  induction schedule generalizing p budgets with
  | nil => exact h
  | cons i rest ih =>
    obtain ⟨⟨table, log⟩, workers⟩ := p
    obtain ⟨ht, _, hall⟩ := stepAt_table rank limit hl unames i workers table log hs hw
    have hp := stepAt_progress rank limit hl i workers budgets table log hs
      (fun w hw' => (hw w hw').2.1) h
    have hp' : List.Forall₂ (fun w b => GoodPhase w.phase ∧
        workLeft rank w.phase (stepAt (tableClient rank limit) i workers ⟨table, log⟩).2.table ≤ b)
        (stepAt (tableClient rank limit) i workers ⟨table, log⟩).1 (decAt i budgets) := by
      refine hp.imp ?_
      intro w b hwb
      rw [workLeft_touched rank unames w.phase table _ ht]
      exact hwb
    simp only [runSchedule, consume]
    exact ih ⟨(stepAt (tableClient rank limit) i workers ⟨table, log⟩).2,
        (stepAt (tableClient rank limit) i workers ⟨table, log⟩).1⟩ (decAt i budgets)
      (scanOrdered_touched rank unames table _ ht hs) hall hp'

theorem decAt_getElem? (i : Nat) (budgets : List Nat) (j : Nat) :
    (decAt i budgets)[j]? = (budgets[j]?).map (fun b => if i = j then b - 1 else b) := by
  induction budgets generalizing i j with
  | nil => cases i <;> simp [decAt]
  | cons b bs ih =>
    cases i with
    | zero =>
      cases j with
      | zero => simp [decAt]
      | succ j => simp [decAt]
    | succ i =>
      cases j with
      | zero => simp [decAt]
      | succ j => simp [decAt, ih]

theorem consume_getElem? (schedule : List Nat) (budgets : List Nat) (j : Nat) :
    (consume schedule budgets)[j]? = (budgets[j]?).map (fun b => b - schedule.count j) := by
  induction schedule generalizing budgets with
  | nil => simp [consume]
  | cons i rest ih =>
    rw [consume, ih, decAt_getElem?, Option.map_map]
    congr 1
    funext b
    simp only [Function.comp, List.count_cons, beq_iff_eq]
    by_cases hij : i = j
    · simp only [hij, if_true]; omega
    · simp only [hij, if_false]; omega

theorem consume_zero (schedule : List Nat) (budgets : List Nat)
    (hfair : ∀ j b, budgets[j]? = some b → b ≤ schedule.count j) :
    ∀ b ∈ consume schedule budgets, b = 0 := by
  intro b hb
  obtain ⟨j, hj⟩ := List.getElem?_of_mem hb
  rw [consume_getElem?] at hj
  cases hbj : budgets[j]? with
  | none => rw [hbj] at hj; simp at hj
  | some b0 =>
    rw [hbj] at hj
    simp only [Option.map_some', Option.some.injEq] at hj
    have := hfair j b0 hbj
    omega

theorem spawnWorkers_budget (rank : Key → Nat) (rngs : Nat → Rng) (i : Nat)
    (unames : List String) (table : List Item) :
    List.Forall₂ (fun w b => GoodPhase w.phase ∧ workLeft rank w.phase table ≤ b)
      (spawnWorkers rngs i unames : List (Worker Key))
      (List.replicate unames.length (3 * table.length + 2)) := by
  induction unames generalizing i with
  | nil => exact List.Forall₂.nil
  | cons u rest ih =>
    simp only [spawnWorkers, List.length_cons, List.replicate_succ]
    refine List.Forall₂.cons ⟨fun out hh => (by cases hh), ?_⟩ (ih (i + 1))
    simp [workLeft, afterCount]

theorem forall₂_exists_right {α β : Type} (R : α → β → Prop) (l1 : List α) (l2 : List β)
    (h : List.Forall₂ R l1 l2) : ∀ a ∈ l1, ∃ b ∈ l2, R a b := by
  induction h with
  | nil => intro a ha; cases ha
  | cons hab _ ih =>
    intro a ha
    rcases List.mem_cons.mp ha with rfl | ha'
    · exact ⟨_, List.mem_cons_self _ _, hab⟩
    · obtain ⟨b, hb, hr⟩ := ih a ha'
      exact ⟨b, List.mem_cons_of_mem _ hb, hr⟩

/-- Every interleaving that steps each worker at least `3 * |table| + 2` times
ends with all workers completed: `wg.Wait()` returns. -/
theorem pool_completes (rank : Key → Nat) (limit : Nat) (table : List Item)
    (unames : List String) (rngs : Nat → Rng) (schedule : List Nat) (log : List (Request Key))
    (hl : 0 < limit) (hs : ScanOrdered rank table)
    (hu : ∀ u ∈ unames, u ≠ "PK" ∧ u ≠ "SK")
    (hfair : ∀ i, i < unames.length → 3 * table.length + 2 ≤ schedule.count i) :
    (updateAllItemsConcurrently (tableClient rank limit) unames rngs schedule
      ⟨table, log⟩).completed = true := by
  obtain ⟨hnames0, hphase0⟩ := spawnWorkers_spec rngs 0 unames
  have hw0 : ∀ w ∈ (spawnWorkers rngs 0 unames : List (Worker Key)),
      w.uname ∈ unames ∧ ¬ (w.uname = "PK" ∨ w.uname = "SK") ∧ WorkerInv rank w table := by
    intro w hw
    have hmem : w.uname ∈ unames := by
      rw [← hnames0]
      exact List.mem_map.mpr ⟨w, hw, rfl⟩
    refine ⟨hmem, ?_, ?_, ?_⟩
    · have := hu w.uname hmem
      tauto
    · intro r _ hrem
      rw [hphase0 w hw] at hrem
      exact absurd trivial hrem
    · intro pending next hph
      rw [hphase0 w hw] at hph
      cases hph
  have hprog := runSchedule_progress rank limit hl unames schedule
    ⟨⟨table, log⟩, spawnWorkers rngs 0 unames⟩
    (List.replicate unames.length (3 * table.length + 2)) hs hw0
    (spawnWorkers_budget rank rngs 0 unames table)
  have hzero := consume_zero schedule (List.replicate unames.length (3 * table.length + 2))
    (by
      intro j b hj
      rw [List.getElem?_replicate] at hj
      by_cases hlt : j < unames.length
      · simp only [hlt, if_true, Option.some.injEq] at hj
        rw [← hj]
        exact hfair j hlt
      · simp [hlt] at hj)
  unfold updateAllItemsConcurrently
  simp only [Pool.completed, List.all_eq_true, decide_eq_true_eq]
  intro w hw
  obtain ⟨b, hb, hg, hle⟩ := forall₂_exists_right _ _ _ hprog w hw
  have hb0 := hzero b hb
  rw [hb0] at hle
  cases hph : w.phase with
  | scanning offset => rw [hph] at hle; simp [workLeft] at hle
  | updating pending next =>
    rw [hph] at hle
    cases next <;> simp [workLeft] at hle
  | finished out => rw [hg out hph]

end Tooling
